import Mathlib

/-!
A shallow embedding of the transaction-categorization core of the
family-office-tracker repository, together with theorems about it.

Sources embedded:
* `packages/core/src/rules-engine.js`  (condition matcher, rule selector, validator)
* `packages/core/src/categorizer.js`   (categorizer / split allocator)
* `packages/core/src/parsers/costco.js` (Costco debit/credit CSV adapter)
* the shared parser utilities and the generic CSV adapter
  (`_shared.js`, `generic.js` with `parse` / `parseWithErrors`)

Modelling conventions:
* JavaScript numbers are modelled as exact rationals `ℚ` (`NaN` is modelled
  as `Option.none` where the source can produce it).
* Dynamically-typed rule-file fields are modelled by `JsVal` / `Option`
  fields; absent object keys are `Option.none`.
* JavaScript strings are Lean `String`s; the handful of string operations
  used by the source (`toLowerCase`, `trim`, `includes`, `split`) are
  re-implemented over `List Char` so that they compute (ASCII case folding,
  as the source only feeds ASCII header names and the data is compared
  case-insensitively the same way on both sides).
* `RegExp` compilation and testing is abstracted as a `RegexEngine`
  parameter: `compile` returns `none` exactly when `new RegExp` would throw.
-/

/-- JS whitespace characters relevant to `trim` on CSV data. -/
def wsChar (c : Char) : Bool :=
  c = ' ' || c = '\t' || c = '\n' || c = '\r'

/-- `String.prototype.trim`, over a character list. -/
def jsTrimList (l : List Char) : List Char :=
  ((l.dropWhile wsChar).reverse.dropWhile wsChar).reverse

/-- `String.prototype.trim`. -/
def jsTrim (s : String) : String :=
  String.mk (jsTrimList s.toList)

/-- `String.prototype.toLowerCase` (ASCII case folding). -/
def jsToLower (s : String) : String :=
  String.mk (s.toList.map Char.toLower)

/-- `String.prototype.includes sub`: `sub` occurs as a contiguous substring. -/
def jsIncludes (text sub : String) : Bool :=
  decide (List.IsInfix sub.toList text.toList)

/-- A dynamically-typed JS value as it can appear in a rules document
(objects and arrays are modelled structurally where the code inspects
them, so they do not appear here). -/
inductive JsVal where
  | num (q : ℚ)
  | str (s : String)
  | jsBool (b : Bool)
  | jsNull
deriving DecidableEq, Repr

/-- JS truthiness of a `JsVal`. -/
def JsVal.truthy : JsVal → Bool
  | .num q => q ≠ 0
  | .str s => s ≠ ""
  | .jsBool b => b
  | .jsNull => false

/-- `Boolean(x)` for a possibly-absent value (absent = `undefined`, falsy). -/
def jsBoolOf : Option JsVal → Bool
  | some v => v.truthy
  | none => false

/-- Extract a JS number: `typeof x === "number"` then its value. -/
def getNum : Option JsVal → Option ℚ
  | some (.num q) => some q
  | _ => none

/-- The `regex` condition value: either a plain pattern string or an
object `{pattern | regex, flags}` (`rules-engine.js`, `matchRegex`). -/
inductive RegexCfg where
  | strPat (pattern : String)
  | obj (pattern : Option String) (regexAlt : Option String) (flags : Option String)
deriving DecidableEq, Repr

/-- Abstract `RegExp` backend: `compile pat flags` is `none` exactly when
`new RegExp(pattern, flags)` would throw, otherwise the compiled test. -/
structure RegexEngine where
  compile : Option String → String → Option (String → Bool)

/-- JS `a || b` on optional strings ("" and absence are falsy). -/
def strOr (a b : Option String) : Option String :=
  match a with
  | some s => if s = "" then b else some s
  | none => b

/-- The resolved pattern of a regex config: `regexConfig.pattern || regexConfig.regex`
for the object form, the string itself otherwise. -/
def cfgPattern : RegexCfg → Option String
  | .strPat p => some p
  | .obj p r _ => strOr p r

/-- The resolved flags: `"i"` for the string form, `regexConfig.flags || "i"` otherwise. -/
def cfgFlags : RegexCfg → String
  | .strPat _ => "i"
  | .obj _ _ f =>
    match f with
    | some s => if s = "" then "i" else s
    | none => "i"

/-- `amount_between` object; keys may be absent or non-numeric. -/
structure AmountBetween where
  min : Option JsVal
  max : Option JsVal
deriving DecidableEq, Repr

/-- A rule's `when` clause (`rules-engine.js` header comment).  Keyword
lists are modelled as string lists; the source's guards `if (when.contains)`
etc. test JS truthiness, which for a present array (even an empty one) is
always true, matching `Option.isSome` here. -/
structure WhenCond where
  contains : Option (List String) := none
  any_contains : Option (List String) := none
  all_contains : Option (List String) := none
  regex : Option RegexCfg := none
  amount_gt : Option JsVal := none
  amount_lt : Option JsVal := none
  amount_between : Option AmountBetween := none
deriving DecidableEq, Repr

/-- A split allocation `{venture, percent, note}`. -/
structure SplitAlloc where
  venture : Option String := none
  percent : Option JsVal := none
  note : Option String := none
deriving DecidableEq, Repr

/-- The `then.split` value: an array of allocations, or any other JS value
(the validator rejects truthy non-arrays). -/
inductive SplitField where
  | arr (allocs : List SplitAlloc)
  | notArr (v : JsVal)
deriving DecidableEq, Repr

/-- A rule's `then` action (`then` is a Lean keyword, hence `thenPart` below). -/
structure ThenAction where
  category : Option String := none
  venture : Option String := none
  requiresReceipt : Option JsVal := none
  note : Option String := none
  split : Option SplitField := none
deriving DecidableEq, Repr

/-- A rule.  `when`/`then` may be absent (`none`), which the validator
rejects; `priority` is optional and defaults to 0 via `?? 0`. -/
structure Rule where
  id : String
  priority : Option ℚ := none
  when : Option WhenCond := none
  thenPart : Option ThenAction := none
deriving DecidableEq, Repr

/-- A rules document. -/
structure RulesFile where
  ventures : Option (List String) := none
  rules : List Rule
deriving DecidableEq, Repr

/-- A normalized transaction as produced by the CSV adapters. -/
structure Txn where
  id : String
  date : String
  description : String
  amount : ℚ
  source : String
deriving DecidableEq, Repr

/-- `matchAnyContains` (`rules-engine.js`): at least one keyword occurs in
`text` (which the caller has already lower-cased); an empty keyword list
matches vacuously.  (The source's `!Array.isArray(keywords)` escape is
unrepresentable here since keyword fields are modelled as lists.) -/
def matchAnyContains (text : String) (keywords : List String) : Bool :=
  if keywords.length = 0 then true
  else keywords.any fun k => jsIncludes text (jsToLower k)

/-- `matchAllContains` (`rules-engine.js`): every keyword occurs in `text`. -/
def matchAllContains (text : String) (keywords : List String) : Bool :=
  if keywords.length = 0 then true
  else keywords.all fun k => jsIncludes text (jsToLower k)

/-- `matchRegex` (`rules-engine.js`): resolve pattern and flags, compile,
test; a compilation failure (the `catch` branch) yields `false`. -/
def matchRegex (eng : RegexEngine) (text : String) (cfg : RegexCfg) : Bool :=
  match eng.compile (cfgPattern cfg) (cfgFlags cfg) with
  | some test => test text
  | none => false

/-- The `amount_between` clause, evaluated last by `matchesWhen`:
numeric bounds give the inclusive range test, anything else throws. -/
def abClause (txn : Txn) : Option AmountBetween → Except String Bool
  | none => .ok true
  | some ab =>
    match getNum ab.min, getNum ab.max with
    | some mn, some mx => .ok (decide (txn.amount ≥ mn) && decide (txn.amount ≤ mx))
    | _, _ => .error "amount_between requires numeric min and max"

/-- Guard of a keyword clause: present and `matchAnyContains` fails. -/
def anyContainsFail (desc : String) : Option (List String) → Bool
  | some ks => !matchAnyContains desc ks
  | none => false

/-- Guard of the `all_contains` clause. -/
def allContainsFail (desc : String) : Option (List String) → Bool
  | some ks => !matchAllContains desc ks
  | none => false

/-- Guard of the `regex` clause. -/
def regexFail (eng : RegexEngine) (desc : String) : Option RegexCfg → Bool
  | some cfg => !matchRegex eng desc cfg
  | none => false

/-- Guard of the `amount_gt` clause (`typeof when.amount_gt === "number"`). -/
def amountGtFail (amt : ℚ) (v : Option JsVal) : Bool :=
  match getNum v with
  | some g => !(decide (amt > g))
  | none => false

/-- Guard of the `amount_lt` clause. -/
def amountLtFail (amt : ℚ) (v : Option JsVal) : Bool :=
  match getNum v with
  | some l => !(decide (amt < l))
  | none => false

/-- `matchesWhen` (`rules-engine.js`): all present clauses must pass, in
source order, with an early `return false` on the first failing clause;
only the `amount_between` clause (evaluated last) can throw. -/
def matchesWhen (eng : RegexEngine) (txn : Txn) (w : WhenCond) : Except String Bool :=
  let desc := jsToLower txn.description
  if anyContainsFail desc w.contains then .ok false
  else if anyContainsFail desc w.any_contains then .ok false
  else if allContainsFail desc w.all_contains then .ok false
  else if regexFail eng desc w.regex then .ok false
  else if amountGtFail txn.amount w.amount_gt then .ok false
  else if amountLtFail txn.amount w.amount_lt then .ok false
  else abClause txn w.amount_between

/-- `matchesWhen` as called by `matchRule` on `rule.when`: a missing
`when` object makes the property accesses inside `matchesWhen` throw. -/
def matchesWhenOpt (eng : RegexEngine) (txn : Txn) : Option WhenCond → Except String Bool
  | some w => matchesWhen eng txn w
  | none => .error "TypeError: cannot read properties of undefined"

/-- `rule.priority ?? 0`. -/
def rulePrio (r : Rule) : ℚ :=
  r.priority.getD 0

/-- The order imposed by the comparator in `sortRulesByPriority`:
`a` sorts no later than `b` iff `a` has strictly higher priority, or equal
priority and an original index no greater than `b`'s. -/
def ruleLe (a b : ℕ × Rule) : Bool :=
  if rulePrio a.2 = rulePrio b.2 then a.1 ≤ b.1
  else decide (rulePrio b.2 < rulePrio a.2)

/-- Insert into a sorted list (used to model `Array.prototype.sort`, whose
algorithm is unspecified; the comparator above is a total order, so every
comparison-correct sort produces this unique result). -/
def insertSorted (le : α → α → Bool) (a : α) : List α → List α
  | [] => [a]
  | b :: bs => if le b a then b :: insertSorted le a bs else a :: b :: bs

/-- Sorting by repeated insertion. -/
def insertionSort (le : α → α → Bool) : List α → List α
  | [] => []
  | x :: xs => insertSorted le x (insertionSort le xs)

/-- `sortRulesByPriority` (`rules-engine.js`): decorate with the original
index, sort by priority descending with index as tie-break, undecorate. -/
def sortRulesByPriority (rules : List Rule) : List Rule :=
  (insertionSort ruleLe rules.enum).map Prod.snd

/-- The linear scan of `matchRule` over the sorted rules. -/
def firstMatch (eng : RegexEngine) (txn : Txn) : List Rule → Except String (Option Rule)
  | [] => .ok none
  | r :: rs =>
    match matchesWhenOpt eng txn r.when with
    | .error e => .error e
    | .ok true => .ok (some r)
    | .ok false => firstMatch eng txn rs

/-- `matchRule` (`rules-engine.js`): first matching rule in priority order. -/
def matchRule (eng : RegexEngine) (txn : Txn) (rulesFile : RulesFile) :
    Except String (Option Rule) :=
  firstMatch eng txn (sortRulesByPriority rulesFile.rules)

/-- JS truthiness of an optional string field (`!allocation.venture`:
absence, `null`-like values and the empty string are falsy). -/
def strTruthy : Option String → Bool
  | some s => s ≠ ""
  | none => false

/-- The per-allocation loop of the split validation in `validateRulesFile`:
checks each allocation in order and accumulates `totalPercent`. -/
def checkAllocs (rid : String) : List SplitAlloc → ℚ → Except String ℚ
  | [], total => .ok total
  | a :: rest, total =>
    if !strTruthy a.venture then
      .error ("Rule " ++ rid ++ ": split allocation missing venture")
    else
      match a.percent with
      | some (JsVal.num p) =>
        if p ≤ 0 then
          .error ("Rule " ++ rid ++ ": split allocation percent must be a positive number")
        else checkAllocs rid rest (total + p)
      | _ =>
        .error ("Rule " ++ rid ++ ": split allocation percent must be a positive number")

/-- The `if (r.then.split)` block of `validateRulesFile`: reject truthy
non-arrays, validate each allocation, then the 100-percent sum invariant. -/
def validateSplit (rid : String) : Option SplitField → Except String Bool
  | none => .ok true
  | some (SplitField.notArr v) =>
    if v.truthy then .error ("Rule " ++ rid ++ ": split must be an array")
    else .ok true
  | some (SplitField.arr allocs) =>
    match checkAllocs rid allocs 0 with
    | .error e => .error e
    | .ok total =>
      if 1/100 < |total - 100| then
        .error ("Rule " ++ rid ++ ": split percentages must sum to 100 (got " ++
          toString total ++ ")")
      else .ok true

/-- The per-rule loop of `validateRulesFile`. -/
def validateRules : List Rule → Except String Bool
  | [] => .ok true
  | r :: rest =>
    if r.id = "" then .error "Each rule must have id."
    else if r.when.isNone then .error ("Rule " ++ r.id ++ " missing when.")
    else if r.thenPart.isNone then .error ("Rule " ++ r.id ++ " missing then.")
    else
      match validateSplit r.id (match r.thenPart with
        | some th => th.split
        | none => none) with
      | .error e => .error e
      | .ok _ => validateRules rest

/-- `validateRulesFile` (`rules-engine.js`).  The source's initial
`typeof rulesFile !== "object"` and `Array.isArray(rulesFile.rules)`
checks concern documents not representable in this model (a `RulesFile`
always has a rule list), so validation starts at the per-rule loop. -/
def validateRulesFile (rulesFile : RulesFile) : Except String Bool :=
  validateRules rulesFile.rules

/-- The audit `allocation` payload of a `split_allocation` entry. -/
structure AuditAlloc where
  venture : Option String
  percent : Option JsVal
deriving DecidableEq, Repr

/-- Audit step tags. -/
inductive AuditStep where
  | no_match
  | matched_rule
  | split_allocation
deriving DecidableEq, Repr

/-- One audit entry (`categorizer.js`): step tag, matched rule id, the
rule's `when`/`then` as matched, and for splits the allocation applied. -/
structure AuditEntry where
  step : AuditStep
  ruleId : Option String
  whenUsed : Option WhenCond := none
  thenUsed : Option ThenAction := none
  alloc : Option AuditAlloc := none
deriving DecidableEq, Repr

/-- Split-leg allocation metadata. -/
structure AllocMeta where
  percent : Option JsVal
  originalAmount : ℚ
  splitIndex : ℕ
  totalSplits : ℕ
deriving DecidableEq, Repr

/-- A categorized transaction.  `venture` and `note` stay optional because
the source only sets them on some paths (`{...txn}` spreads of a parsed
transaction carry neither). -/
structure CatTxn where
  id : String
  date : String
  description : String
  amount : ℚ
  source : String
  category : String
  venture : Option String
  requiresReceipt : Bool
  note : Option String
  originalTxnId : Option String
  allocation : Option AllocMeta
  audit : List AuditEntry
deriving DecidableEq, Repr

/-- A missing-receipt alert. -/
structure Alert where
  type : String
  txnId : String
  message : String
  ruleId : String
deriving DecidableEq, Repr

/-- The action object used when `rule.then` is absent (`rule.then || {}`). -/
def emptyThen : ThenAction := {}

/-- The raw percent of an allocation as the number the source multiplies
with; the source would produce `NaN` amounts for non-numeric percents,
which this model (restricted to numeric percents, the validated case)
renders as 0. -/
def percQ (a : SplitAlloc) : ℚ :=
  (getNum a.percent).getD 0

/-- One split leg (`createSplitTransactions` loop body). -/
def mkSplitLeg (txn : Txn) (rule : Rule) (th : ThenAction) (a : SplitAlloc)
    (i total : ℕ) : CatTxn where
  id := txn.id ++ ":split:" ++ toString i
  date := txn.date
  description := txn.description
  amount := txn.amount * percQ a / 100
  source := txn.source
  category := th.category.getD "Uncategorized"
  venture := a.venture
  requiresReceipt := jsBoolOf th.requiresReceipt
  note := some (a.note.getD "")
  originalTxnId := some txn.id
  allocation := some ⟨a.percent, txn.amount, i, total⟩
  audit := [⟨AuditStep.split_allocation, some rule.id, rule.when, rule.thenPart,
    some ⟨a.venture, a.percent⟩⟩]

/-- The indexed loop of `createSplitTransactions`. -/
def createSplitAux (txn : Txn) (rule : Rule) (th : ThenAction) (total : ℕ) :
    List SplitAlloc → ℕ → List CatTxn
  | [], _ => []
  | a :: rest, i => mkSplitLeg txn rule th a i total :: createSplitAux txn rule th total rest (i + 1)

/-- `createSplitTransactions` (`categorizer.js`): one derived transaction
per allocation, in order.  Only called when `rule.then.split` is an array. -/
def createSplitTransactions (txn : Txn) (rule : Rule) : List CatTxn :=
  match rule.thenPart with
  | some th =>
    match th.split with
    | some (SplitField.arr split) => createSplitAux txn rule th split.length split 0
    | _ => []
  | none => []

/-- The uncategorized output for a transaction no rule matched. -/
def noMatchCat (txn : Txn) : CatTxn where
  id := txn.id
  date := txn.date
  description := txn.description
  amount := txn.amount
  source := txn.source
  category := "Uncategorized"
  venture := some "unassigned"
  requiresReceipt := false
  note := none
  originalTxnId := none
  allocation := none
  audit := [⟨AuditStep.no_match, none, none, none, none⟩]

/-- The single-venture output for a matched non-split rule. -/
def standardCat (txn : Txn) (rule : Rule) (th : ThenAction) : CatTxn where
  id := txn.id
  date := txn.date
  description := txn.description
  amount := txn.amount
  source := txn.source
  category := th.category.getD "Uncategorized"
  venture := some (th.venture.getD "unassigned")
  requiresReceipt := jsBoolOf th.requiresReceipt
  note := some (th.note.getD "")
  originalTxnId := none
  allocation := none
  audit := [⟨AuditStep.matched_rule, some rule.id, rule.when, rule.thenPart, none⟩]

/-- `then.split && Array.isArray(then.split)`. -/
def isSplitArr (th : ThenAction) : Bool :=
  match th.split with
  | some (SplitField.arr _) => true
  | _ => false

/-- The split length read for the alert message. -/
def splitLen (th : ThenAction) : ℕ :=
  match th.split with
  | some (SplitField.arr allocs) => allocs.length
  | _ => 0

/-- The categorized records one loop iteration of `categorizeTransactions`
pushes for one transaction: a `no_match` record, the split legs, or one
standard record. -/
def catOne (txn : Txn) : Option Rule → List CatTxn
  | none => [noMatchCat txn]
  | some rule =>
    let th := rule.thenPart.getD emptyThen
    if isSplitArr th then createSplitTransactions txn rule
    else [standardCat txn rule th]

/-- The alerts one loop iteration pushes for one transaction: one
missing-receipt alert when a rule matched and its action's
`requiresReceipt` is truthy (the message notes the fan-out for splits),
none otherwise. -/
def alertsOne (txn : Txn) : Option Rule → List Alert
  | none => []
  | some rule =>
    let th := rule.thenPart.getD emptyThen
    if jsBoolOf th.requiresReceipt then
      [⟨"missing_receipt", txn.id,
        (if isSplitArr th then
          "Receipt required for " ++ txn.description ++ " (" ++
            toString txn.amount ++ ") - split across " ++
            toString (splitLen th) ++ " ventures"
        else
          "Receipt required for " ++ txn.description ++ " (" ++
            toString txn.amount ++ ")"), rule.id⟩]
    else []

/-- `categorizeTransactions` (`categorizer.js`): per transaction, match a
rule, then append that transaction's categorized records and alerts. -/
def categorizeTransactions (eng : RegexEngine) (txns : List Txn) (rulesFile : RulesFile) :
    Except String (List CatTxn × List Alert) :=
  match txns with
  | [] => .ok ([], [])
  | txn :: rest =>
    match matchRule eng txn rulesFile with
    | .error e => .error e
    | .ok ruleOpt =>
      match categorizeTransactions eng rest rulesFile with
      | .error e => .error e
      | .ok (cs, as) => .ok (catOne txn ruleOpt ++ cs, alertsOne txn ruleOpt ++ as)

/-- `split(/\r?\n/)` over characters (a trailing `\r` survives here and is
removed by the `trim` every caller applies to each line). -/
def splitOnNewline : List Char → List Char → List (List Char)
  | [], cur => [cur.reverse]
  | c :: rest, cur =>
    if c = '\n' then cur.reverse :: splitOnNewline rest []
    else splitOnNewline rest (c :: cur)

/-- The line-splitting every adapter starts with:
`csv.split(/\r?\n/).map(l => l.trim()).filter(Boolean)`. -/
def csvLines (csv : String) : List String :=
  ((splitOnNewline csv.toList []).map (fun l => jsTrim (String.mk l))).filter (· ≠ "")

/-- The character loop of `splitCsvLine` (`_shared.js`): split on commas
outside double quotes, dropping the quote characters themselves. -/
def splitCsvChars : List Char → Bool → List Char → List (List Char)
  | [], _, cur => [cur.reverse]
  | c :: rest, inQuotes, cur =>
    if c = '"' then splitCsvChars rest (!inQuotes) cur
    else if c = ',' && !inQuotes then cur.reverse :: splitCsvChars rest inQuotes []
    else splitCsvChars rest inQuotes (c :: cur)

/-- `splitCsvLine` (`_shared.js`): fields of a CSV line, each trimmed. -/
def splitCsvLine (line : String) : List String :=
  (splitCsvChars line.toList false []).map (fun l => jsTrim (String.mk l))

/-- `indexMap` (`_shared.js`): header name → column index, later duplicate
headers overwriting earlier ones. -/
def indexMap (headers : List String) : String → Option ℕ :=
  fun h => headers.enum.foldl (fun acc p => if p.2 = h then some p.1 else acc) none

/-- `pickKey` (`_shared.js`) fused with the subsequent `idx[key]` lookup:
the column index of the first candidate present in the map. -/
def pickIdx (m : String → Option ℕ) : List String → Option ℕ
  | [] => none
  | c :: rest =>
    match m c with
    | some i => some i
    | none => pickIdx m rest

/-- `cols[i]` for a possibly out-of-range index (`undefined` = `none`). -/
def getCol (cols : List String) (i : ℕ) : Option String :=
  cols[i]?

/-- ISO date test `/^\d{4}-\d{2}-\d{2}$/`. -/
def isIsoDate : List Char → Bool
  | [a, b, c, d, '-', e, f, '-', g, h] =>
    a.isDigit && b.isDigit && c.isDigit && d.isDigit &&
    e.isDigit && f.isDigit && g.isDigit && h.isDigit
  | _ => false

/-- US date match `/^(\d{1,2})\/(\d{1,2})\/(\d{4})$/`, returning the three
digit groups. -/
def parseUsDate (cs : List Char) : Option (List Char × List Char × List Char) :=
  let sm := cs.span Char.isDigit
  if sm.1.length = 0 || 2 < sm.1.length then none
  else
    match sm.2 with
    | '/' :: r2 =>
      let sd := r2.span Char.isDigit
      if sd.1.length = 0 || 2 < sd.1.length then none
      else
        match sd.2 with
        | '/' :: r4 =>
          let sy := r4.span Char.isDigit
          if sy.1.length = 4 && sy.2.isEmpty then some (sm.1, sd.1, sy.1) else none
        | _ => none
    | _ => none

/-- `String.padStart(2, "0")` for the one-or-two digit groups above. -/
def pad2 : List Char → List Char
  | [c] => ['0', c]
  | l => l

/-- `normalizeDate` (`_shared.js`): `undefined`/empty → none, already-ISO
kept, `M/D/YYYY` converted, anything else invalid. -/
def normalizeDate (s : Option String) : Option String :=
  match s with
  | none => none
  | some str =>
    if str = "" then none
    else
      let t := jsTrim str
      if isIsoDate t.toList then some t
      else
        match parseUsDate t.toList with
        | some (m, d, y) => some (String.mk (y ++ '-' :: pad2 m ++ '-' :: pad2 d))
        | none => none

/-- Digit list to number. -/
def digitsToNat (ds : List Char) : ℕ :=
  ds.foldl (fun a c => a * 10 + (c.toNat - 48)) 0

/-- Exponent part of a JS numeric literal: optional, `e`/`E` then an
optionally signed digit string consuming the rest of the input. -/
def parseExpPart : List Char → Option ℤ
  | [] => some 0
  | c :: rest =>
    if c = 'e' || c = 'E' then
      match rest with
      | '-' :: ds => if ds ≠ [] && ds.all Char.isDigit then some (-(digitsToNat ds : ℤ)) else none
      | '+' :: ds => if ds ≠ [] && ds.all Char.isDigit then some (digitsToNat ds : ℤ) else none
      | ds => if ds ≠ [] && ds.all Char.isDigit then some (digitsToNat ds : ℤ) else none
    else none

/-- Mantissa of a JS numeric literal: digits with an optional decimal
point; yields the scaled integer value, the number of fraction digits and
the rest of the input. -/
def parseMantissa (cs : List Char) : Option (ℕ × ℕ × List Char) :=
  let si := cs.span Char.isDigit
  match si.2 with
  | '.' :: r2 =>
    let sf := r2.span Char.isDigit
    if si.1.isEmpty && sf.1.isEmpty then none
    else some (digitsToNat (si.1 ++ sf.1), sf.1.length, sf.2)
  | r1 =>
    if si.1.isEmpty then none else some (digitsToNat si.1, 0, r1)

/-- `Number(t)` restricted to the decimal forms bank CSVs contain: the
empty (or all-whitespace) string is 0, otherwise an optionally signed
decimal with optional exponent; anything else (including the hex and
`Infinity` forms no CSV amount uses) is `NaN` = `none`. -/
def jsNumber (s : String) : Option ℚ :=
  let t := jsTrimList s.toList
  if t.isEmpty then some 0
  else
    let (neg, cs) :=
      match t with
      | '-' :: r => (true, r)
      | '+' :: r => (false, r)
      | r => (false, r)
    match parseMantissa cs with
    | none => none
    | some (m, k, rest) =>
      match parseExpPart rest with
      | none => none
      | some e =>
        some ((if neg then -(m : ℚ) else (m : ℚ)) * 10 ^ (e - (k : ℤ)))

/-- `normalizeAmount` (`_shared.js`) on a possibly-`undefined` column:
`undefined` is `NaN`; otherwise strip `$` and `,`, trim, convert. -/
def normalizeAmount (s : Option String) : Option ℚ :=
  match s with
  | none => none
  | some str => jsNumber (jsTrim (String.mk (str.toList.filter fun c => c ≠ '$' && c ≠ ',')))

/-- `hash` (`_shared.js`): 32-bit FNV-1a over the UTF-16 code units of the
description (code points beyond the BMP, which differ from code units, do
not occur in bank descriptions). -/
def fnv1a (s : String) : ℕ :=
  s.toList.foldl (fun h c => (h ^^^ c.toNat) * 16777619 % 4294967296) 2166136261

/-- `(h >>> 0).toString(16)`. -/
def toHex (n : ℕ) : String :=
  String.mk (Nat.toDigits 16 n)

/-- The deterministic transaction id `${source}:${date}:${hash(description)}:${i}`. -/
def mkTxnId (source date description : String) (i : ℕ) : String :=
  source ++ ":" ++ date ++ ":" ++ toHex (fnv1a description) ++ ":" ++ toString i

/-- Resolved header layout of a Costco CSV (`parsers/costco.js`). -/
structure CostcoCtx where
  src : String
  dateIx : ℕ
  descIx : ℕ
  debitIx : Option ℕ
  creditIx : Option ℕ
  statusIx : Option ℕ
  amtIx : Option ℕ
deriving DecidableEq, Repr

/-- Header resolution of `parse` in `parsers/costco.js`: `none` for fewer
than two lines, an error when required headers are missing, otherwise the
resolved column layout and the data lines. -/
def costcoHeader (csv : String) (source : String) :
    Except String (Option (CostcoCtx × List String)) :=
  match csvLines csv with
  | [] => .ok none
  | [_] => .ok none
  | l0 :: rest =>
    let headers := (splitCsvLine l0).map jsTrim
    let idx := indexMap headers
    match pickIdx idx ["Date", "Transaction Date", "Posted Date"],
        pickIdx idx ["Description", "Merchant"] with
    | some dateIx, some descIx =>
      let debitIx := pickIdx idx ["Debit"]
      let creditIx := pickIdx idx ["Credit"]
      let statusIx := pickIdx idx ["Status"]
      if debitIx.isSome || creditIx.isSome then
        .ok (some (⟨source, dateIx, descIx, debitIx, creditIx, statusIx, none⟩, rest))
      else
        match pickIdx idx ["Amount"] with
        | some amtIx =>
          .ok (some (⟨source, dateIx, descIx, none, none, statusIx, some amtIx⟩, rest))
        | none => .error "Costco CSV must have either Debit/Credit columns or Amount column"
    | _, _ =>
      .error ("Costco CSV missing required headers. Found: " ++
        ", ".intercalate headers ++
        "\nExpected: Date, Description, and either Debit/Credit or Amount")

/-- `debitKey ? normalizeAmount(cols[idx[debitKey]]) : 0`. -/
def costcoDebit (ctx : CostcoCtx) (cols : List String) : Option ℚ :=
  match ctx.debitIx with
  | some i => normalizeAmount (getCol cols i)
  | none => some 0

/-- `creditKey ? normalizeAmount(cols[idx[creditKey]]) : 0`. -/
def costcoCredit (ctx : CostcoCtx) (cols : List String) : Option ℚ :=
  match ctx.creditIx with
  | some i => normalizeAmount (getCol cols i)
  | none => some 0

/-- `x || 0`: `NaN` (and 0 itself) becomes 0. -/
def orZero (x : Option ℚ) : ℚ :=
  x.getD 0

/-- The row amount: `(credit || 0) - (debit || 0)` in debit/credit mode,
the single amount column otherwise. -/
def costcoRowAmount (ctx : CostcoCtx) (cols : List String) : Option ℚ :=
  if ctx.debitIx.isSome || ctx.creditIx.isSome then
    some (orZero (costcoCredit ctx cols) - orZero (costcoDebit ctx cols))
  else
    match ctx.amtIx with
    | some i => normalizeAmount (getCol cols i)
    | none => none

/-- The pending-status skip: `Status` exists and trims (case-insensitively)
to `"pending"`. -/
def costcoPending (ctx : CostcoCtx) (cols : List String) : Bool :=
  match ctx.statusIx with
  | some i => jsToLower (jsTrim ((getCol cols i).getD "")) = "pending"
  | none => false

/-- The row loop body of `parse` in `parsers/costco.js`: `none` for rows
that are pending, dateless, descriptionless, `NaN` or zero. -/
def costcoRow (ctx : CostcoCtx) (i : ℕ) (line : String) : Option Txn :=
  let cols := splitCsvLine line
  let date := normalizeDate (getCol cols ctx.dateIx)
  let description := jsTrim ((getCol cols ctx.descIx).getD "")
  let amount := costcoRowAmount ctx cols
  if costcoPending ctx cols then none
  else
    match date, amount with
    | some d, some a =>
      if description = "" || a = 0 then none
      else some ⟨mkTxnId ctx.src d description i, d, description, a, ctx.src⟩
    | _, _ => none

/-- `parse` in `parsers/costco.js`. -/
def costcoParse (csv : String) (source : String) : Except String (List Txn) :=
  match costcoHeader csv source with
  | .error e => .error e
  | .ok none => .ok []
  | .ok (some (ctx, rows)) =>
    .ok ((List.enumFrom 1 rows).filterMap fun p => costcoRow ctx p.1 p.2)

/-- Resolved header layout of a generic CSV (`parsers/generic.js`). -/
structure GenCtx where
  src : String
  dateIx : ℕ
  descIx : ℕ
  amtIx : ℕ
deriving DecidableEq, Repr

/-- Header resolution shared by `parse` and `parseWithErrors` in
`parsers/generic.js`. -/
def genericHeader (csv : String) (source : String) :
    Option (Option (GenCtx × List String)) :=
  match csvLines csv with
  | [] => some none
  | [_] => some none
  | l0 :: rest =>
    let idx := indexMap ((splitCsvLine l0).map jsTrim)
    match pickIdx idx ["Date", "Transaction Date", "Posting Date"],
        pickIdx idx ["Description", "Merchant", "Transaction Description"],
        pickIdx idx ["Amount", "Debit", "Charge", "Transaction Amount"] with
    | some dateIx, some descIx, some amtIx => some (some (⟨source, dateIx, descIx, amtIx⟩, rest))
    | _, _, _ => none

/-- The row loop body of `parse` in `parsers/generic.js` (zero amounts are
kept here, unlike the Costco adapter). -/
def genericRow (ctx : GenCtx) (i : ℕ) (line : String) : Option Txn :=
  let cols := splitCsvLine line
  let date := normalizeDate (getCol cols ctx.dateIx)
  let description := jsTrim ((getCol cols ctx.descIx).getD "")
  let amount := normalizeAmount (getCol cols ctx.amtIx)
  match date, amount with
  | some d, some a =>
    if description = "" then none
    else some ⟨mkTxnId ctx.src d description i, d, description, a, ctx.src⟩
  | _, _ => none

/-- `parse` in `parsers/generic.js` (header failures throw; the found-vs-
expected header listing of the source's message is elided, as
`genericHeader` does not carry the header row out of the failure case and
no property below concerns that message text). -/
def genericParse (csv : String) (source : String) : Except String (List Txn) :=
  match genericHeader csv source with
  | none => .error "CSV missing required headers."
  | some none => .ok []
  | some (some (ctx, rows)) =>
    .ok ((List.enumFrom 1 rows).filterMap fun p => genericRow ctx p.1 p.2)

/-- A row-level error entry of `parseWithErrors`. -/
structure RowError where
  row : ℕ
  message : String
  value : Option (Option String × Option String × Option String)
deriving DecidableEq, Repr

/-- The result record of `parseWithErrors`. -/
structure PweResult where
  transactions : List Txn
  errors : List RowError
  totalRows : ℕ
  validCount : ℕ
  errorCount : ℕ
deriving DecidableEq, Repr

/-- The row loop body of `parseWithErrors` in `parsers/generic.js`: either
an error entry naming every failed field check, or a transaction. -/
def pweRow (ctx : GenCtx) (i : ℕ) (line : String) : RowError ⊕ Txn :=
  let cols := splitCsvLine line
  let rawDate := getCol cols ctx.dateIx
  let rawDesc := getCol cols ctx.descIx
  let rawAmount := getCol cols ctx.amtIx
  let date := normalizeDate rawDate
  let description := jsTrim (rawDesc.getD "")
  let amount := normalizeAmount rawAmount
  let rowErrors :=
    (if date.isNone then ["Invalid date \"" ++ rawDate.getD "(empty)" ++ "\""] else []) ++
    (if description = "" then ["Empty description"] else []) ++
    (if amount.isNone then ["Invalid amount \"" ++ rawAmount.getD "(empty)" ++ "\""] else [])
  if rowErrors.isEmpty then
    Sum.inr ⟨mkTxnId ctx.src (date.getD "") description i, date.getD "", description,
      amount.getD 0, ctx.src⟩
  else
    Sum.inl ⟨i + 1, "; ".intercalate rowErrors, some (rawDate, rawDesc, rawAmount)⟩

/-- `parseWithErrors` in `parsers/generic.js`: transactions and per-row
errors collected side by side (header problems become a single error
entry instead of a throw; as for `genericParse`, the missing-header
message's header listing is elided). -/
def parseWithErrors (csv : String) (source : String) : PweResult :=
  match genericHeader csv source with
  | some none => ⟨[], [⟨0, "CSV file is empty or has no data rows", none⟩], 0, 0, 1⟩
  | none =>
    ⟨[], [⟨1, "Missing required headers.", none⟩], (csvLines csv).length - 1, 0, 1⟩
  | some (some (ctx, rows)) =>
    let results := (List.enumFrom 1 rows).map fun p => pweRow ctx p.1 p.2
    let transactions := results.filterMap fun r =>
      match r with
      | Sum.inr t => some t
      | Sum.inl _ => none
    let errors := results.filterMap fun r =>
      match r with
      | Sum.inl e => some e
      | Sum.inr _ => none
    ⟨transactions, errors, rows.length, transactions.length, errors.length⟩

/-- A regex backend that compiles nothing (used for concrete documents
whose rules carry no usable regex). -/
def engNone : RegexEngine := ⟨fun _ _ => none⟩

/-- A condition whose only clause is `any_contains`. -/
def onlyAnyContains (ks : List String) : WhenCond := { any_contains := some ks }

/-- A condition whose only clause is the legacy `contains`. -/
def onlyContains (ks : List String) : WhenCond := { contains := some ks }

/-- The same condition with the `amount_between` clause removed. -/
def dropAB (w : WhenCond) : WhenCond := { w with amount_between := none }

/-- The alert keys the specification expects `categorizeTransactions` to
emit for one input transaction: exactly one `missing_receipt` alert keyed
by the (parent) transaction id and the matched rule id when the matched
action's `requiresReceipt` is truthy — regardless of how many split legs
the transaction fans out into — and none otherwise. -/
def expectedAlertKeys (eng : RegexEngine) (rf : RulesFile) (t : Txn) :
    List (String × String × String) :=
  match matchRule eng t rf with
  | .ok (some r) =>
    if jsBoolOf ((r.thenPart.getD emptyThen).requiresReceipt) then
      [("missing_receipt", t.id, r.id)]
    else []
  | _ => []

/-- Claim-side predicate: a split allocation lacks a venture. -/
def ventureMissingB (a : SplitAlloc) : Bool :=
  match a.venture with
  | some s => s = ""
  | none => true

/-- Claim-side predicate: a split allocation's percent is not a positive
number. -/
def percentBadB (a : SplitAlloc) : Bool :=
  match a.percent with
  | some (JsVal.num p) => decide (p ≤ 0)
  | _ => true

/-- The sum of a split's percents (non-numeric percents contributing 0;
they are flagged by `percentBadB` separately). -/
def percTotal (allocs : List SplitAlloc) : ℚ :=
  (allocs.map percQ).sum

/-- Claim-side predicate: the rule carries a split with a missing venture,
a non-positive (or non-numeric) percent, or percents summing outside
100 ± 0.01. -/
def ruleSplitViolation (r : Rule) : Prop :=
  ∃ th allocs, r.thenPart = some th ∧ th.split = some (SplitField.arr allocs) ∧
    ((∃ a ∈ allocs, ventureMissingB a = true) ∨ (∃ a ∈ allocs, percentBadB a = true) ∨
      1/100 < |percTotal allocs - 100|)

/-- A rule whose `then.split` is present and truthy but not an array. -/
def splitNotArray (r : Rule) : Prop :=
  ∃ th v, r.thenPart = some th ∧ th.split = some (SplitField.notArr v) ∧ v.truthy = true

/-- Concrete transactions and documents used as witnesses and
counterexamples. -/
def txnShared : Txn := ⟨"t1", "2025-01-01", "SHARED SERVICE", 100, "generic"⟩

/-- A transaction no rule of an empty document can match. -/
def txnPlain : Txn := ⟨"t2", "2025-01-02", "CHATGPT", -20, "generic"⟩

/-- The empty rules document. -/
def docEmptyRules : RulesFile := { rules := [] }

/-- Allocations of 50% and 49.995% — summing to 99.995, inside the
validator's ±0.01 tolerance but not exactly 100. -/
def allocsC2 : List SplitAlloc :=
  [⟨some "v1", some (JsVal.num 50), none⟩,
   ⟨some "v2", some (JsVal.num (9999/200)), none⟩]

/-- The action splitting by `allocsC2`. -/
def thC2 : ThenAction := { split := some (SplitField.arr allocsC2) }

/-- A rule applying `thC2` to everything. -/
def ruleC2 : Rule := { id := "r1", when := some {}, thenPart := some thC2 }

/-- Document holding only `ruleC2`. -/
def docC2 : RulesFile := { rules := [ruleC2] }

/-- The 60/40 split action of the categorizer test fixture. -/
def thW2 : ThenAction :=
  { category := some "Shared",
    split := some (SplitField.arr
      [⟨some "venture-a", some (JsVal.num 60), some "Primary"⟩,
       ⟨some "venture-b", some (JsVal.num 40), some "Secondary"⟩]) }

/-- A rule applying `thW2` to everything. -/
def ruleW2 : Rule := { id := "r1", when := some {}, thenPart := some thW2 }

/-- A transaction of amount −100 for the 60/40 split. -/
def txnW2 : Txn := ⟨"txn-1", "2025-01-01", "SHARED SERVICE", -100, "generic"⟩

/-- A match-everything rule with a simple assignment action. -/
def ruleW9 : Rule :=
  { id := "r1", when := some {},
    thenPart := some { category := some "Software", venture := some "venture-c" } }

/-- Document holding only `ruleW9`. -/
def docW9 : RulesFile := { rules := [ruleW9] }

/-- A match-everything rule requiring a receipt. -/
def ruleW4 : Rule :=
  { id := "r1", when := some {},
    thenPart := some
      { category := some "Travel", venture := some "v1",
        requiresReceipt := some (JsVal.jsBool true) } }

/-- Document holding only `ruleW4`. -/
def docW4 : RulesFile := { rules := [ruleW4] }

/-- An `amount_between` with a non-numeric lower bound. -/
def abBad : AmountBetween := ⟨some (JsVal.str "x"), some (JsVal.num 5)⟩

/-- A condition whose keyword clause fails before the malformed
`amount_between` bound is ever inspected. -/
def wShort : WhenCond := { any_contains := some ["zzz"], amount_between := some abBad }

/-- A condition holding only a well-formed `amount_between`. -/
def wAB : WhenCond :=
  { amount_between := some ⟨some (JsVal.num (-500)), some (JsVal.num (-10))⟩ }

/-- Three match-everything rules with priorities 10, 100 and 50
(the specification's priority scenario). -/
def ruleP10 : Rule := { id := "p10", priority := some 10, when := some {}, thenPart := some {} }

/-- Priority-100 rule of the scenario. -/
def ruleP100 : Rule := { id := "p100", priority := some 100, when := some {}, thenPart := some {} }

/-- Priority-50 rule of the scenario. -/
def ruleP50 : Rule := { id := "p50", priority := some 50, when := some {}, thenPart := some {} }

/-- Document holding the three priority rules in declaration order
10, 100, 50. -/
def docPrio : RulesFile := { rules := [ruleP10, ruleP100, ruleP50] }

/-- A rule whose `then.split` is the (truthy, non-array) number 5. -/
def ruleSplitNum : Rule :=
  { id := "r1", when := some {}, thenPart := some { split := some (SplitField.notArr (JsVal.num 5)) } }

/-- Document holding only `ruleSplitNum`. -/
def docSplitNum : RulesFile := { rules := [ruleSplitNum] }

/-- A rule whose split allocation lacks a venture. -/
def ruleNoVenture : Rule :=
  { id := "r7", when := some {},
    thenPart := some { split := some (SplitField.arr [⟨none, some (JsVal.num 100), none⟩]) } }

/-- Document holding only `ruleNoVenture`. -/
def docNoVenture : RulesFile := { rules := [ruleNoVenture] }

/-- The categorizer output for `txnPlain` against `docW9`. -/
def outW9 : List CatTxn × List Alert :=
  (catOne txnPlain (some ruleW9), alertsOne txnPlain (some ruleW9))

/-- The categorizer output for `txnPlain` against `docW4`. -/
def outW4 : List CatTxn × List Alert :=
  (catOne txnPlain (some ruleW4), alertsOne txnPlain (some ruleW4))

/-- A Costco CSV whose one data row is pending. -/
def csvW8 : String := "Status,Date,Description,Debit,Credit\npending,2025-01-03,STORE,5,"

/-- The header layout `costcoHeader` resolves for `csvW8`. -/
def ctxW8 : CostcoCtx := ⟨"costco", 1, 2, some 3, some 4, some 0, none⟩

/-- The data row of `csvW8`. -/
def lineW8 : String := "pending,2025-01-03,STORE,5,"

/-- The header layout of a plain `Date,Description,Amount` CSV. -/
def ctxW10 : GenCtx := ⟨"generic", 0, 1, 2⟩

/-- A data row whose amount field is the empty string. -/
def lineW10 : String := "2025-01-02,Foo,"

theorem matchAnyContains_iff (text : String) (ks : List String) :
    matchAnyContains text ks = true ↔
      ks = [] ∨ ∃ k ∈ ks, List.IsInfix (jsToLower k).toList text.toList := by
  unfold matchAnyContains
  rcases ks with - | ⟨k, ks⟩
  · simp
  · simp [jsIncludes, List.any_eq_true]


/-- Either all six description/amount guards pass and `matchesWhen`
reduces to the `amount_between` clause, or some guard fails and both the
condition and its `amount_between`-free variant are ordinary non-matches. -/
theorem matchesWhen_split (eng : RegexEngine) (txn : Txn) (w : WhenCond) :
    (matchesWhen eng txn w = abClause txn w.amount_between ∧
      matchesWhen eng txn (dropAB w) = .ok true)
  ∨ (matchesWhen eng txn w = .ok false ∧
      matchesWhen eng txn (dropAB w) = .ok false) := by
  unfold matchesWhen dropAB
  cases h1 : anyContainsFail (jsToLower txn.description) w.contains <;>
    cases h2 : anyContainsFail (jsToLower txn.description) w.any_contains <;>
    cases h3 : allContainsFail (jsToLower txn.description) w.all_contains <;>
    cases h4 : regexFail eng (jsToLower txn.description) w.regex <;>
    cases h5 : amountGtFail txn.amount w.amount_gt <;>
    cases h6 : amountLtFail txn.amount w.amount_lt <;>
    simp [h1, h2, h3, h4, h5, h6, abClause]

/-- C7 — `matchesWhen` on a condition holding a sole `any_contains` (or
legacy `contains`) clause returns true exactly when the keyword list is
empty or some lower-cased keyword occurs in the lower-cased description. -/
theorem any_contains_iff (eng : RegexEngine) (txn : Txn) (ks : List String) :
    (matchesWhen eng txn (onlyAnyContains ks) = .ok true ↔
      ks = [] ∨ ∃ k ∈ ks,
        List.IsInfix (jsToLower k).toList (jsToLower txn.description).toList)
  ∧ (matchesWhen eng txn (onlyContains ks) = .ok true ↔
      ks = [] ∨ ∃ k ∈ ks,
        List.IsInfix (jsToLower k).toList (jsToLower txn.description).toList) := by
  constructor
  · rw [← matchAnyContains_iff (jsToLower txn.description) ks]
    unfold matchesWhen onlyAnyContains
    cases h : matchAnyContains (jsToLower txn.description) ks <;>
      simp [h, anyContainsFail, allContainsFail, regexFail, amountGtFail,
        amountLtFail, getNum, abClause]
  · rw [← matchAnyContains_iff (jsToLower txn.description) ks]
    unfold matchesWhen onlyContains
    cases h : matchAnyContains (jsToLower txn.description) ks <;>
      simp [h, anyContainsFail, allContainsFail, regexFail, amountGtFail,
        amountLtFail, getNum, abClause]

/-- C7 counterexample — with an empty keyword list, no keyword occurs in
the description, yet the condition matches. -/
theorem any_contains_empty_cex :
    matchesWhen engNone ⟨"t1", "2025-01-01", "CHATGPT", -20, "generic"⟩
        (onlyAnyContains []) = .ok true
  ∧ (([] : List String).any fun k =>
      jsIncludes (jsToLower "CHATGPT") (jsToLower k)) = false := by
  constructor
  · rfl
  · rfl

/-- C6 — whenever a condition's `regex` clause fails to compile, the whole
condition evaluates to an ordinary non-match (`.ok false`); no error
escapes, so a categorization run over the remaining rules proceeds. -/
theorem regex_compile_failure_nonmatch (eng : RegexEngine) (txn : Txn)
    (w : WhenCond) (cfg : RegexCfg) (hr : w.regex = some cfg)
    (hc : eng.compile (cfgPattern cfg) (cfgFlags cfg) = none) :
    matchesWhen eng txn w = .ok false := by
  have hg : regexFail eng (jsToLower txn.description) w.regex = true := by
    simp [regexFail, hr, matchRegex, hc]
  simp only [matchesWhen, hg]
  split_ifs <;> simp_all

/-- C6 witness at a concrete bad pattern. -/
theorem regex_compile_failure_nonmatch_witness :
    matchesWhen engNone ⟨"t1", "2025-01-01", "CHATGPT", -20, "generic"⟩
      { regex := some (RegexCfg.strPat "(") } = .ok false :=
  regex_compile_failure_nonmatch engNone _ _ (RegexCfg.strPat "(") rfl rfl

/-- C5 (amended) — with an `amount_between` clause present: numeric bounds
make the whole condition match exactly when the other clauses pass and the
amount lies inclusively between them; a non-numeric bound makes matching
throw, provided the clauses evaluated earlier all pass (an earlier failing
clause short-circuits to an ordinary non-match first). -/
theorem amount_between_inclusive_or_throws (eng : RegexEngine) (txn : Txn)
    (w : WhenCond) (ab : AmountBetween) (hab : w.amount_between = some ab) :
    (∀ mn mx, getNum ab.min = some mn → getNum ab.max = some mx →
      (matchesWhen eng txn w = .ok true ↔
        matchesWhen eng txn (dropAB w) = .ok true ∧ mn ≤ txn.amount ∧ txn.amount ≤ mx))
  ∧ ((getNum ab.min = none ∨ getNum ab.max = none) →
      matchesWhen eng txn (dropAB w) = .ok true →
        matchesWhen eng txn w = .error "amount_between requires numeric min and max") := by
  constructor
  · intro mn mx hmn hmx
    rcases matchesWhen_split eng txn w with ⟨e1, e2⟩ | ⟨e1, e2⟩
    · rw [e1, e2, hab]
      simp [abClause, hmn, hmx, ge_iff_le]
    · rw [e1, e2]
      simp
  · intro hbad hpass
    rcases matchesWhen_split eng txn w with ⟨e1, e2⟩ | ⟨e1, e2⟩
    · rw [e1, hab]
      rcases hbad with h | h
      · cases hmx : getNum ab.max <;> simp [abClause, h, hmx]
      · cases hmn : getNum ab.min <;> simp [abClause, h, hmn]
    · rw [hpass] at e2
      exact absurd e2 (by simp)

/-- C5 counterexample — a condition whose `amount_between` carries a
non-numeric lower bound, but whose keyword clause already fails: matching
returns an ordinary non-match instead of throwing. -/
theorem amount_between_short_circuit_cex :
    matchesWhen engNone txnPlain wShort = .ok false
  ∧ wShort.amount_between = some abBad
  ∧ getNum abBad.min = none := by
  refine ⟨?_, rfl, rfl⟩
  rfl

/-- C5 witness — the inclusive-range direction at concrete numeric bounds. -/
theorem amount_between_inclusive_or_throws_witness :
    matchesWhen engNone txnPlain wAB = .ok true :=
  ((amount_between_inclusive_or_throws engNone txnPlain wAB _ rfl).1 (-500) (-10)
      rfl rfl).mpr
    ⟨rfl, by norm_num [txnPlain], by norm_num [txnPlain]⟩

/-- Unfolding `createSplitTransactions` at a rule whose action holds an
array split. -/
theorem createSplitTransactions_eq (txn : Txn) (rule : Rule) (th : ThenAction)
    (allocs : List SplitAlloc) (hth : rule.thenPart = some th)
    (hsp : th.split = some (SplitField.arr allocs)) :
    createSplitTransactions txn rule = createSplitAux txn rule th allocs.length allocs 0 := by
  unfold createSplitTransactions
  rw [hth]
  simp [hsp]

/-- Amounts of split legs: each leg is the parent amount times its percent
over 100, so the legs sum to the parent amount times the percent total
over 100. -/
theorem createSplitAux_amount_sum (txn : Txn) (rule : Rule) (th : ThenAction)
    (total : ℕ) :
    ∀ (allocs : List SplitAlloc) (i : ℕ),
      ((createSplitAux txn rule th total allocs i).map CatTxn.amount).sum =
        txn.amount * (allocs.map percQ).sum / 100 := by
  intro allocs
  induction allocs with
  | nil => intro i; simp [createSplitAux]
  | cons a rest ih =>
    intro i
    simp only [createSplitAux, List.map_cons, List.sum_cons, List.map, ih, mkSplitLeg]
    ring

/-- C2 (amended) — when the split percents sum to exactly 100, the derived
legs' amounts sum exactly to the parent transaction's amount. -/
theorem split_amounts_sum_exact (txn : Txn) (rule : Rule) (th : ThenAction)
    (allocs : List SplitAlloc) (hth : rule.thenPart = some th)
    (hsp : th.split = some (SplitField.arr allocs))
    (hsum : (allocs.map percQ).sum = 100) :
    ((createSplitTransactions txn rule).map CatTxn.amount).sum = txn.amount := by
  rw [createSplitTransactions_eq txn rule th allocs hth hsp,
    createSplitAux_amount_sum, hsum, mul_div_assoc]
  norm_num

/-- C2 witness — the 60/40 split of a −100 transaction sums to −100. -/
theorem split_amounts_sum_exact_witness :
    ((createSplitTransactions txnW2 ruleW2).map CatTxn.amount).sum = txnW2.amount :=
  split_amounts_sum_exact txnW2 ruleW2 thW2 _ rfl rfl
    (by norm_num [thW2, percQ, getNum])

/-- C2 counterexample — a split validated under the ±0.01 tolerance whose
percents sum to 99.995: the derived legs no longer sum to the parent
amount. -/
theorem split_sum_counterexample :
    validateRulesFile docC2 = .ok true
  ∧ categorizeTransactions engNone [txnShared] docC2 =
      .ok (createSplitTransactions txnShared ruleC2, [])
  ∧ ((createSplitTransactions txnShared ruleC2).map CatTxn.amount).sum ≠ txnShared.amount := by
  refine ⟨?_, ?_, ?_⟩
  · simp [validateRulesFile, validateRules, validateSplit, checkAllocs,
      strTruthy, ruleC2, thC2, allocsC2, docC2]
    norm_num
    have hno : ¬ ((1 : ℚ) / 100 < |1 / 200|) := by
      rw [not_lt, abs_of_pos] <;> norm_num
    rw [if_neg hno]
  · rfl
  · rw [createSplitTransactions_eq txnShared ruleC2 thC2 allocsC2 rfl rfl,
      createSplitAux_amount_sum]
    norm_num [allocsC2, txnShared, percQ, getNum]

/-- One step of `categorizeTransactions` on a cons cell, forwards. -/
theorem categorize_cons_eq (eng : RegexEngine) (rf : RulesFile) (txn : Txn)
    (rest : List Txn) (ruleOpt : Option Rule) (cs : List CatTxn) (as : List Alert)
    (hm : matchRule eng txn rf = .ok ruleOpt)
    (hr : categorizeTransactions eng rest rf = .ok (cs, as)) :
    categorizeTransactions eng (txn :: rest) rf =
      .ok (catOne txn ruleOpt ++ cs, alertsOne txn ruleOpt ++ as) := by
  unfold categorizeTransactions
  rw [hm, hr]

/-- One step of `categorizeTransactions` on a cons cell, backwards. -/
theorem categorize_cons_inv (eng : RegexEngine) (rf : RulesFile) (txn : Txn)
    (rest : List Txn) (out : List CatTxn × List Alert)
    (h : categorizeTransactions eng (txn :: rest) rf = .ok out) :
    ∃ ruleOpt cs as, matchRule eng txn rf = .ok ruleOpt ∧
      categorizeTransactions eng rest rf = .ok (cs, as) ∧
      out = (catOne txn ruleOpt ++ cs, alertsOne txn ruleOpt ++ as) := by
  unfold categorizeTransactions at h
  cases hm : matchRule eng txn rf with
  | error e => rw [hm] at h; exact absurd h (by simp)
  | ok ruleOpt =>
    rw [hm] at h
    cases hr : categorizeTransactions eng rest rf with
    | error e => rw [hr] at h; exact absurd h (by simp)
    | ok p =>
      rw [hr] at h
      obtain ⟨cs, as⟩ := p
      simp only [Except.ok.injEq] at h
      exact ⟨ruleOpt, cs, as, rfl, rfl, h.symm⟩

/-- The alert keys one transaction contributes are exactly the expected
ones for its matched rule. -/
theorem alertsOne_keys (eng : RegexEngine) (rf : RulesFile) (txn : Txn)
    (ruleOpt : Option Rule) (hm : matchRule eng txn rf = .ok ruleOpt) :
    (alertsOne txn ruleOpt).map (fun a => (a.type, a.txnId, a.ruleId)) =
      expectedAlertKeys eng rf txn := by
  cases ruleOpt with
  | none => simp [alertsOne, expectedAlertKeys, hm]
  | some rule =>
    simp only [alertsOne, expectedAlertKeys, hm]
    by_cases hrr : jsBoolOf ((rule.thenPart.getD emptyThen).requiresReceipt) <;>
      simp [hrr]

/-- C4 — the alerts of a categorization run are, transaction by
transaction in input order, exactly one `missing_receipt` alert keyed by
the parent transaction id and matched rule id whenever the matched
action's `requiresReceipt` is truthy (also for splits: one per
split-origin transaction, never one per leg), and nothing otherwise. -/
theorem alerts_once_per_matched_txn (eng : RegexEngine) (rf : RulesFile) :
    ∀ (txns : List Txn) (out : List CatTxn × List Alert),
      categorizeTransactions eng txns rf = .ok out →
      out.2.map (fun a => (a.type, a.txnId, a.ruleId)) =
        (txns.map (expectedAlertKeys eng rf)).flatten := by
  intro txns
  induction txns with
  | nil =>
    intro out h
    unfold categorizeTransactions at h
    simp only [Except.ok.injEq] at h
    rw [← h]
    simp
  | cons txn rest ih =>
    intro out h
    obtain ⟨ruleOpt, cs, as, hm, hr, rfl⟩ := categorize_cons_inv eng rf txn rest out h
    simp only [List.map_cons, List.flatten_cons, List.map_append]
    rw [alertsOne_keys eng rf txn ruleOpt hm, ih (cs, as) hr]

/-- C4 witness — a matched receipt-requiring rule yields exactly the one
expected alert key. -/
theorem alerts_once_per_matched_txn_witness :
    outW4.2.map (fun a => (a.type, a.txnId, a.ruleId)) =
      ([txnPlain].map (expectedAlertKeys engNone docW4)).flatten :=
  alerts_once_per_matched_txn engNone docW4 [txnPlain] outW4 (by rfl)

/-- `isSplitArr` characterized. -/
theorem isSplitArr_iff (th : ThenAction) :
    isSplitArr th = true ↔ ∃ allocs, th.split = some (SplitField.arr allocs) := by
  unfold isSplitArr
  rcases h : th.split with - | sf
  · simp
  · cases sf <;> simp

/-- Every split leg carries a string note and a `split_allocation` audit
entry. -/
theorem createSplitAux_note_step (txn : Txn) (rule : Rule) (th : ThenAction)
    (total : ℕ) :
    ∀ (allocs : List SplitAlloc) (i : ℕ) (c : CatTxn),
      c ∈ createSplitAux txn rule th total allocs i →
      c.note.isSome = true ∧ ∀ e ∈ c.audit, e.step = AuditStep.split_allocation := by
  intro allocs
  induction allocs with
  | nil => intro i c hc; simp [createSplitAux] at hc
  | cons a rest ih =>
    intro i c hc
    rw [createSplitAux] at hc
    rcases List.mem_cons.mp hc with rfl | hc
    · exact ⟨rfl, by simp [mkSplitLeg]⟩
    · exact ih (i + 1) c hc

/-- The records one transaction contributes have a string note exactly
when their audit trail is not the `no_match` one. -/
theorem catOne_note (txn : Txn) (ruleOpt : Option Rule) :
    ∀ c ∈ catOne txn ruleOpt,
      (c.note.isSome = true ↔ ∀ e ∈ c.audit, e.step ≠ AuditStep.no_match) := by
  intro c hc
  cases ruleOpt with
  | none =>
    simp only [catOne, List.mem_singleton] at hc
    subst hc
    simp [noMatchCat]
  | some rule =>
    simp only [catOne] at hc
    by_cases hs : isSplitArr (rule.thenPart.getD emptyThen)
    · rw [if_pos hs] at hc
      rcases htp : rule.thenPart with - | th
      · rw [htp] at hs
        exact absurd hs (by simp [emptyThen, isSplitArr])
      · rw [htp] at hs
        simp only [Option.getD_some] at hs
        obtain ⟨allocs, hsp⟩ := (isSplitArr_iff th).mp hs
        rw [createSplitTransactions_eq txn rule th allocs htp hsp] at hc
        obtain ⟨h1, h2⟩ :=
          createSplitAux_note_step txn rule th allocs.length allocs 0 c hc
        rw [h1]
        simp only [true_iff]
        intro e he
        rw [h2 e he]
        simp
    · rw [if_neg hs, List.mem_singleton] at hc
      subst hc
      simp [standardCat]

/-- C9 (amended) — a categorized transaction carries a string `note`
exactly when it was produced from a matched rule; the `no_match` records
carry no note field at all. -/
theorem note_presence_iff (eng : RegexEngine) (rf : RulesFile) :
    ∀ (txns : List Txn) (out : List CatTxn × List Alert),
      categorizeTransactions eng txns rf = .ok out →
      ∀ c ∈ out.1,
        (c.note.isSome = true ↔ ∀ e ∈ c.audit, e.step ≠ AuditStep.no_match) := by
  intro txns
  induction txns with
  | nil =>
    intro out h
    unfold categorizeTransactions at h
    simp only [Except.ok.injEq] at h
    rw [← h]
    simp
  | cons txn rest ih =>
    intro out h
    obtain ⟨ruleOpt, cs, as, hm, hr, rfl⟩ := categorize_cons_inv eng rf txn rest out h
    intro c hc
    rcases List.mem_append.mp hc with hc | hc
    · exact catOne_note txn ruleOpt c hc
    · exact ih (cs, as) hr c hc

/-- C9 counterexample — a transaction matching no rule is categorized with
no `note` field at all (its note is not a string). -/
theorem note_missing_on_no_match_cex :
    categorizeTransactions engNone [txnPlain] docEmptyRules =
      .ok ([noMatchCat txnPlain], [])
  ∧ (noMatchCat txnPlain).note = none := ⟨rfl, rfl⟩

/-- C9 witness — a matched rule's record does carry a string note. -/
theorem note_presence_iff_witness :
    (standardCat txnPlain ruleW9 (ruleW9.thenPart.getD emptyThen)).note.isSome = true := by
  have h := note_presence_iff engNone docW9 [txnPlain] outW9 (by rfl)
    (standardCat txnPlain ruleW9 (ruleW9.thenPart.getD emptyThen))
    (by simp [outW9, catOne, ruleW9, isSplitArr, emptyThen])
  exact h.mpr (by simp [standardCat])


/-- `ventureMissingB` is the negation of the validator's truthiness check. -/
theorem ventureMissingB_eq (a : SplitAlloc) :
    ventureMissingB a = !strTruthy a.venture := by
  rcases hv : a.venture with - | s <;> simp [ventureMissingB, strTruthy, hv]

/-- A well-formed percent behind `percentBadB`. -/
theorem percentBadB_false (a : SplitAlloc) (h : percentBadB a = false) :
    ∃ p, a.percent = some (JsVal.num p) ∧ 0 < p := by
  unfold percentBadB at h
  split at h
  · next p heq => exact ⟨p, heq, by simpa using h⟩
  · simp at h

/-- Every error `checkAllocs` produces names the rule id. -/
theorem checkAllocs_msg (rid : String) :
    ∀ (allocs : List SplitAlloc) (t : ℚ) (e : String),
      checkAllocs rid allocs t = .error e →
      ∃ post, e = "Rule " ++ rid ++ post := by
  intro allocs
  induction allocs with
  | nil => intro t e h; simp [checkAllocs] at h
  | cons a rest ih =>
    intro t e h
    rw [checkAllocs] at h
    split_ifs at h with hv
    · exact ⟨": split allocation missing venture", by
        simp only [Except.error.injEq] at h
        exact h.symm⟩
    · split at h
      · split_ifs at h with hp0
        · exact ⟨": split allocation percent must be a positive number", by
            simp only [Except.error.injEq] at h
            exact h.symm⟩
        · exact ih _ e h
      · exact ⟨": split allocation percent must be a positive number", by
          simp only [Except.error.injEq] at h
          exact h.symm⟩

/-- `checkAllocs` succeeds exactly when every allocation has a venture and
a positive numeric percent. -/
theorem checkAllocs_ok_iff (rid : String) :
    ∀ (allocs : List SplitAlloc) (t : ℚ),
      (∃ total, checkAllocs rid allocs t = .ok total) ↔
        ∀ a ∈ allocs, ventureMissingB a = false ∧ percentBadB a = false := by
  intro allocs
  induction allocs with
  | nil => intro t; simp [checkAllocs]
  | cons a rest ih =>
    intro t
    constructor
    · rintro ⟨total, h⟩
      rw [checkAllocs] at h
      split_ifs at h with hv
      · split at h
        · next p heq =>
          split_ifs at h with hp0
          intro x hx
          rcases List.mem_cons.mp hx with rfl | hx
          · refine ⟨by rw [ventureMissingB_eq]; simpa using hv, ?_⟩
            simp [percentBadB, heq, hp0]
          · exact ((ih _).mp ⟨total, h⟩) x hx
        · simp at h
    · intro hall
      obtain ⟨h1, h2⟩ := hall a (List.mem_cons_self a rest)
      rw [ventureMissingB_eq] at h1
      obtain ⟨p, hp, hp0⟩ := percentBadB_false a h2
      rw [checkAllocs]
      rw [if_neg (by simpa using h1)]
      simp only [hp]
      rw [if_neg (not_le.mpr hp0)]
      exact (ih _).mpr fun x hx => hall x (List.mem_cons_of_mem a hx)

/-- The total `checkAllocs` returns is the accumulated percent sum. -/
theorem checkAllocs_total (rid : String) :
    ∀ (allocs : List SplitAlloc) (t total : ℚ),
      checkAllocs rid allocs t = .ok total → total = t + percTotal allocs := by
  intro allocs
  induction allocs with
  | nil =>
    intro t total h
    simp only [checkAllocs, Except.ok.injEq] at h
    simp [percTotal, ← h]
  | cons a rest ih =>
    intro t total h
    rw [checkAllocs] at h
    split_ifs at h with hv
    · split at h
      · next p heq =>
        split_ifs at h with hp0
        have := ih _ total h
        rw [this]
        simp only [percTotal, List.map_cons, List.sum_cons, percQ, getNum, heq,
          Option.getD_some]
        ring
      · simp at h

/-- `ruleSplitViolation` at a known array split. -/
theorem ruleSplitViolation_arr (r : Rule) (th : ThenAction)
    (allocs : List SplitAlloc) (hth : r.thenPart = some th)
    (hsp : th.split = some (SplitField.arr allocs)) :
    ruleSplitViolation r ↔
      ((∃ a ∈ allocs, ventureMissingB a = true) ∨ (∃ a ∈ allocs, percentBadB a = true) ∨
        1/100 < |percTotal allocs - 100|) := by
  unfold ruleSplitViolation
  constructor
  · rintro ⟨th', allocs', hth', hsp', hd⟩
    rw [hth, Option.some.injEq] at hth'
    subst hth'
    rw [hsp, Option.some.injEq] at hsp'
    cases hsp'
    exact hd
  · intro hd
    exact ⟨th, allocs, hth, hsp, hd⟩

/-- No array-split violation is possible without an array split. -/
theorem ruleSplitViolation_not_arr (r : Rule) (th : ThenAction)
    (hth : r.thenPart = some th)
    (hsp : ∀ allocs, th.split ≠ some (SplitField.arr allocs)) :
    ¬ ruleSplitViolation r := by
  rintro ⟨th', allocs', hth', hsp', -⟩
  rw [hth, Option.some.injEq] at hth'
  subst hth'
  exact hsp allocs' hsp'

/-- `splitNotArray` at a known non-array split. -/
theorem splitNotArray_notArr (r : Rule) (th : ThenAction) (v : JsVal)
    (hth : r.thenPart = some th) (hsp : th.split = some (SplitField.notArr v)) :
    splitNotArray r ↔ v.truthy = true := by
  unfold splitNotArray
  constructor
  · rintro ⟨th', v', hth', hsp', hv⟩
    rw [hth, Option.some.injEq] at hth'
    subst hth'
    rw [hsp, Option.some.injEq] at hsp'
    cases hsp'
    exact hv
  · intro hv
    exact ⟨th, v, hth, hsp, hv⟩

/-- No non-array violation is possible without a non-array split. -/
theorem splitNotArray_not_notArr (r : Rule) (th : ThenAction)
    (hth : r.thenPart = some th)
    (hsp : ∀ v, th.split ≠ some (SplitField.notArr v)) :
    ¬ splitNotArray r := by
  rintro ⟨th', v', hth', hsp', -⟩
  rw [hth, Option.some.injEq] at hth'
  subst hth'
  exact hsp v' hsp'

/-- `validateSplit` errors exactly on the claim's split violations (plus
the truthy non-array split), and every error names the rule id. -/
theorem validateSplit_char (r : Rule) (th : ThenAction) (hth : r.thenPart = some th) :
    ((∃ e, validateSplit r.id th.split = .error e) ↔
      (ruleSplitViolation r ∨ splitNotArray r))
  ∧ (∀ e, validateSplit r.id th.split = .error e → ∃ post, e = "Rule " ++ r.id ++ post)
  ∧ (validateSplit r.id th.split = .ok true ∨
      ∃ e, validateSplit r.id th.split = .error e) := by
  rcases hsp : th.split with - | sf
  · refine ⟨?_, ?_, Or.inl rfl⟩
    · simp only [validateSplit]
      constructor
      · rintro ⟨e, he⟩; simp at he
      · rintro (hviol | hviol)
        · exact absurd hviol (ruleSplitViolation_not_arr r th hth (by simp [hsp]))
        · exact absurd hviol (splitNotArray_not_notArr r th hth (by simp [hsp]))
    · intro e he; simp [validateSplit] at he
  · cases sf with
    | notArr v =>
      by_cases hv : v.truthy = true
      · refine ⟨?_, ?_,
          Or.inr ⟨"Rule " ++ r.id ++ ": split must be an array",
            by simp [validateSplit, hv]⟩⟩
        · constructor
          · intro _
            exact Or.inr ((splitNotArray_notArr r th v hth hsp).mpr hv)
          · intro _
            exact ⟨"Rule " ++ r.id ++ ": split must be an array",
              by simp [validateSplit, hv]⟩
        · intro e he
          simp only [validateSplit, hv, if_true, Except.error.injEq] at he
          exact ⟨": split must be an array", he.symm⟩
      · refine ⟨?_, ?_, Or.inl (by simp [validateSplit, hv])⟩
        · constructor
          · rintro ⟨e, he⟩
            simp [validateSplit, hv] at he
          · rintro (hviol | hviol)
            · exact absurd hviol (ruleSplitViolation_not_arr r th hth (by simp [hsp]))
            · exact absurd ((splitNotArray_notArr r th v hth hsp).mp hviol) hv
        · intro e he
          simp [validateSplit, hv] at he
    | arr allocs =>
      cases hc : checkAllocs r.id allocs 0 with
      | error e0 =>
        have hvs : validateSplit r.id (some (SplitField.arr allocs)) = .error e0 := by
          simp [validateSplit, hc]
        have hnoall : ¬ ∀ a ∈ allocs, ventureMissingB a = false ∧ percentBadB a = false := by
          rw [← checkAllocs_ok_iff r.id allocs 0]
          rintro ⟨total, ht⟩
          rw [hc] at ht
          exact absurd ht (by simp)
        have hviol : ruleSplitViolation r := by
          rw [ruleSplitViolation_arr r th allocs hth hsp]
          push_neg at hnoall
          obtain ⟨a, ha, hre⟩ := hnoall
          by_cases hvm : ventureMissingB a = true
          · exact Or.inl ⟨a, ha, hvm⟩
          · refine Or.inr (Or.inl ⟨a, ha, ?_⟩)
            cases hb : percentBadB a with
            | false => exact absurd hb (hre (Bool.eq_false_iff.mpr hvm))
            | true => rfl
        refine ⟨⟨fun _ => Or.inl hviol, fun _ => ⟨e0, hvs⟩⟩, ?_, Or.inr ⟨e0, hvs⟩⟩
        intro e he
        rw [hvs, Except.error.injEq] at he
        subst he
        exact checkAllocs_msg r.id allocs 0 e0 hc
      | ok total =>
        have hall : ∀ a ∈ allocs, ventureMissingB a = false ∧ percentBadB a = false :=
          (checkAllocs_ok_iff r.id allocs 0).mp ⟨total, hc⟩
        have htot : total = percTotal allocs := by
          have := checkAllocs_total r.id allocs 0 total hc
          rw [this]; ring
        have hvs : validateSplit r.id (some (SplitField.arr allocs)) =
            if 1/100 < |total - 100| then
              .error ("Rule " ++ r.id ++ ": split percentages must sum to 100 (got " ++
                toString total ++ ")")
            else .ok true := by
          simp [validateSplit, hc]
        by_cases htol : 1/100 < |total - 100|
        · have hvs' : validateSplit r.id (some (SplitField.arr allocs)) =
              .error ("Rule " ++ r.id ++ ": split percentages must sum to 100 (got " ++
                toString total ++ ")") := by
            rw [hvs, if_pos htol]
          have hviol : ruleSplitViolation r := by
            rw [ruleSplitViolation_arr r th allocs hth hsp]
            exact Or.inr (Or.inr (htot ▸ htol))
          refine ⟨⟨fun _ => Or.inl hviol, fun _ => ⟨_, hvs'⟩⟩, ?_, Or.inr ⟨_, hvs'⟩⟩
          intro e he
          rw [hvs', Except.error.injEq] at he
          refine ⟨": split percentages must sum to 100 (got " ++ toString total ++ ")", ?_⟩
          rw [← he]
          simp [String.append_assoc]
        · have hvs' : validateSplit r.id (some (SplitField.arr allocs)) = .ok true := by
            rw [hvs, if_neg htol]
          refine ⟨?_, ?_, Or.inl hvs'⟩
          · constructor
            · rintro ⟨e, he⟩
              rw [hvs'] at he
              exact absurd he (by simp)
            · rintro (hviol | hviol)
              · rw [ruleSplitViolation_arr r th allocs hth hsp] at hviol
                rcases hviol with ⟨a, ha, hvm⟩ | ⟨a, ha, hpb⟩ | ht
                · exact absurd hvm (by simp [(hall a ha).1])
                · exact absurd hpb (by simp [(hall a ha).2])
                · exact absurd (htot ▸ ht) htol
              · exact absurd hviol (splitNotArray_not_notArr r th hth (by simp [hsp]))
          · intro e he
            rw [hvs'] at he
            exact absurd he (by simp)

/-- `validateRules` either succeeds with `true` or throws. -/
theorem validateRules_total :
    ∀ rules, validateRules rules = .ok true ∨ ∃ e, validateRules rules = .error e := by
  intro rules
  induction rules with
  | nil => exact Or.inl rfl
  | cons r rest ih =>
    rw [validateRules]
    by_cases h1 : r.id = ""
    · exact Or.inr ⟨_, by rw [if_pos h1]⟩
    rw [if_neg h1]
    by_cases h2 : r.when.isNone = true
    · exact Or.inr ⟨_, by rw [if_pos h2]⟩
    rw [if_neg h2]
    by_cases h3 : r.thenPart.isNone = true
    · exact Or.inr ⟨_, by rw [if_pos h3]⟩
    rw [if_neg h3]
    cases hv : validateSplit r.id (match r.thenPart with
        | some th => th.split
        | none => none) with
    | error e => exact Or.inr ⟨e, rfl⟩
    | ok b => exact ih

/-- The per-list characterization behind C3. -/
theorem validateRules_char :
    ∀ (rules : List Rule),
      ((∀ r ∈ rules, r.id ≠ "" ∧ r.when.isSome = true ∧ r.thenPart.isSome = true) →
        ((validateRules rules = .ok true ↔
            ¬ ∃ r ∈ rules, ruleSplitViolation r ∨ splitNotArray r)
         ∧ ∀ e, validateRules rules = .error e →
            ∃ r ∈ rules, (ruleSplitViolation r ∨ splitNotArray r) ∧
              ∃ post, e = "Rule " ++ r.id ++ post))
  ∧ ((∃ r ∈ rules, r.id = "" ∨ r.when = none ∨ r.thenPart = none) →
      ∃ e, validateRules rules = .error e) := by
  intro rules
  induction rules with
  | nil =>
    constructor
    · intro _
      constructor
      · simp [validateRules]
      · intro e he; simp [validateRules] at he
    · rintro ⟨r, hr, -⟩; simp at hr
  | cons r rest ih =>
    constructor
    · intro hpre
      obtain ⟨hid, hwhen, hthen⟩ := hpre r (List.mem_cons_self r rest)
      obtain ⟨w, hw⟩ := Option.isSome_iff_exists.mp hwhen
      obtain ⟨th, hth⟩ := Option.isSome_iff_exists.mp hthen
      have hvr : validateRules (r :: rest) =
          match validateSplit r.id th.split with
          | .error e => .error e
          | .ok _ => validateRules rest := by
        rw [validateRules]
        simp [hid, hw, hth]
      obtain ⟨hchar1, hchar2, hchar3⟩ := validateSplit_char r th hth
      obtain ⟨ihiff, ihmsg⟩ := ih.1 fun x hx => hpre x (List.mem_cons_of_mem r hx)
      rcases hchar3 with hok | ⟨e0, herr⟩
      · have hnoviol : ¬ (ruleSplitViolation r ∨ splitNotArray r) := by
          rw [← hchar1]
          rintro ⟨e, he⟩
          rw [hok] at he
          exact absurd he (by simp)
        have hvr2 : validateRules (r :: rest) = validateRules rest := by rw [hvr, hok]
        constructor
        · rw [hvr2, ihiff]
          constructor
          · intro hno
            rintro ⟨x, hx, hviol⟩
            rcases List.mem_cons.mp hx with rfl | hx
            · exact hnoviol hviol
            · exact hno ⟨x, hx, hviol⟩
          · intro hno
            rintro ⟨x, hx, hviol⟩
            exact hno ⟨x, List.mem_cons_of_mem r hx, hviol⟩
        · intro e he
          rw [hvr2] at he
          obtain ⟨x, hx, hviol, post, hpost⟩ := ihmsg e he
          exact ⟨x, List.mem_cons_of_mem r hx, hviol, post, hpost⟩
      · have hviol : ruleSplitViolation r ∨ splitNotArray r := hchar1.mp ⟨e0, herr⟩
        have hvr2 : validateRules (r :: rest) = .error e0 := by rw [hvr, herr]
        constructor
        · rw [hvr2]
          constructor
          · intro h; exact absurd h (by simp)
          · intro hno; exact absurd ⟨r, List.mem_cons_self r rest, hviol⟩ hno
        · intro e he
          rw [hvr2, Except.error.injEq] at he
          subst he
          obtain ⟨post, hpost⟩ := hchar2 e0 herr
          exact ⟨r, List.mem_cons_self r rest, hviol, post, hpost⟩
    · rintro ⟨x, hx, hbad⟩
      rcases List.mem_cons.mp hx with rfl | hx
      · by_cases h1 : x.id = ""
        · exact ⟨"Each rule must have id.", by rw [validateRules, if_pos h1]⟩
        · by_cases h2 : x.when.isNone = true
          · exact ⟨"Rule " ++ x.id ++ " missing when.", by
              rw [validateRules, if_neg h1, if_pos h2]⟩
          · have h3 : x.thenPart = none := by
              rcases hbad with hb | hb | hb
              · exact absurd hb h1
              · exact absurd (by rw [hb]; rfl) h2
              · exact hb
            exact ⟨"Rule " ++ x.id ++ " missing then.", by
              rw [validateRules, if_neg h1, if_neg h2, if_pos (by rw [h3]; rfl)]⟩
      · obtain ⟨e0, he0⟩ := ih.2 ⟨x, hx, hbad⟩
        by_cases h1 : r.id = ""
        · exact ⟨"Each rule must have id.", by rw [validateRules, if_pos h1]⟩
        · by_cases h2 : r.when.isNone = true
          · exact ⟨"Rule " ++ r.id ++ " missing when.", by
              rw [validateRules, if_neg h1, if_pos h2]⟩
          · by_cases h3 : r.thenPart.isNone = true
            · exact ⟨"Rule " ++ r.id ++ " missing then.", by
                rw [validateRules, if_neg h1, if_neg h2, if_pos h3]⟩
            · have hsome : r.thenPart.isSome = true := by
                rw [Option.isSome_iff_ne_none]
                intro hnone
                exact h3 (by rw [hnone]; rfl)
              obtain ⟨th, hth⟩ := Option.isSome_iff_exists.mp hsome
              have hvr : validateRules (r :: rest) =
                  match validateSplit r.id th.split with
                  | .error e => .error e
                  | .ok _ => validateRules rest := by
                rw [validateRules]
                simp [h1, h2, hth]
              obtain ⟨-, -, hc3⟩ := validateSplit_char r th hth
              rcases hc3 with hok | ⟨e1, herr⟩
              · exact ⟨e0, by rw [hvr, hok]; exact he0⟩
              · exact ⟨e1, by rw [hvr, herr]⟩

/-- C3 (amended) — for documents whose rules all have an id, a `when` and
a `then`: validation succeeds exactly when no rule has a split violation
(missing venture, non-positive or non-numeric percent, percents outside
100 ± 0.01) or a truthy non-array `split`; every validation error names a
violating rule's id.  Documents with a rule missing id, `when` or `then`
always fail validation. -/
theorem validateRulesFile_split_iff (rf : RulesFile) :
    ((∀ r ∈ rf.rules, r.id ≠ "" ∧ r.when.isSome = true ∧ r.thenPart.isSome = true) →
      ((validateRulesFile rf = .ok true ↔
          ¬ ∃ r ∈ rf.rules, ruleSplitViolation r ∨ splitNotArray r)
       ∧ ∀ e, validateRulesFile rf = .error e →
          ∃ r ∈ rf.rules, (ruleSplitViolation r ∨ splitNotArray r) ∧
            ∃ post, e = "Rule " ++ r.id ++ post))
  ∧ ((∃ r ∈ rf.rules, r.id = "" ∨ r.when = none ∨ r.thenPart = none) →
      ∃ e, validateRulesFile rf = .error e) :=
  validateRules_char rf.rules

/-- C3 counterexample — a rule whose `then.split` is the number 5 passes
all of the claim's listed conditions (its only rule has an id, a `when`
and a `then`, and no split allocation violation), yet `validateRulesFile`
throws. -/
theorem validate_split_not_array_cex :
    validateRulesFile docSplitNum = .error "Rule r1: split must be an array"
  ∧ (∀ r ∈ docSplitNum.rules, r.id ≠ "" ∧ r.when.isSome = true ∧ r.thenPart.isSome = true)
  ∧ ¬ ∃ r ∈ docSplitNum.rules, ruleSplitViolation r := by
  refine ⟨rfl, by decide, ?_⟩
  rintro ⟨r, hr, hviol⟩
  simp only [docSplitNum, List.mem_singleton] at hr
  subst hr
  rcases hviol with ⟨th, allocs, hth, hsp, -⟩
  rw [show ruleSplitNum.thenPart =
    some { split := some (SplitField.notArr (JsVal.num 5)) } from rfl,
    Option.some.injEq] at hth
  subst hth
  simp at hsp

/-- C3 witness — a split allocation lacking a venture makes validation
throw. -/
theorem validateRulesFile_split_iff_witness :
    ∃ e, validateRulesFile docNoVenture = .error e := by
  rcases validateRules_total docNoVenture.rules with hok | he
  · exfalso
    have hiff := ((validateRulesFile_split_iff docNoVenture).1 (by decide)).1
    refine hiff.mp hok ⟨ruleNoVenture, by simp [docNoVenture], Or.inl ?_⟩
    exact ⟨_, _, rfl, rfl, Or.inl ⟨⟨none, some (JsVal.num 100), none⟩, by simp, rfl⟩⟩
  · exact he

/-- The sort comparator is total. -/
theorem ruleLe_total (a b : ℕ × Rule) : ruleLe a b || ruleLe b a = true := by
  unfold ruleLe
  by_cases h : rulePrio a.2 = rulePrio b.2
  · rw [if_pos h, if_pos h.symm]
    simp only [Bool.or_eq_true, decide_eq_true_iff]
    omega
  · rw [if_neg h, if_neg fun hh => h hh.symm]
    simp only [Bool.or_eq_true, decide_eq_true_iff]
    rcases lt_or_gt_of_ne h with hlt | hgt
    · exact Or.inr hlt
    · exact Or.inl hgt

/-- The sort comparator is transitive. -/
theorem ruleLe_trans (a b c : ℕ × Rule) (hab : ruleLe a b = true)
    (hbc : ruleLe b c = true) : ruleLe a c = true := by
  unfold ruleLe at *
  by_cases h1 : rulePrio a.2 = rulePrio b.2 <;>
    by_cases h2 : rulePrio b.2 = rulePrio c.2
  · rw [if_pos h1] at hab
    rw [if_pos h2] at hbc
    rw [if_pos (h1.trans h2)]
    simp only [decide_eq_true_iff] at hab hbc ⊢
    omega
  · rw [if_neg h2] at hbc
    simp only [decide_eq_true_iff] at hbc
    have hca : rulePrio c.2 < rulePrio a.2 := by rw [h1]; exact hbc
    rw [if_neg (ne_of_gt hca)]
    exact decide_eq_true hca
  · rw [if_neg h1] at hab
    simp only [decide_eq_true_iff] at hab
    have hca : rulePrio c.2 < rulePrio a.2 := by rw [← h2]; exact hab
    rw [if_neg (ne_of_gt hca)]
    exact decide_eq_true hca
  · rw [if_neg h1] at hab
    rw [if_neg h2] at hbc
    simp only [decide_eq_true_iff] at hab hbc
    have hca : rulePrio c.2 < rulePrio a.2 := hbc.trans hab
    rw [if_neg (ne_of_gt hca)]
    exact decide_eq_true hca

/-- Inserting permutes to a cons. -/
theorem insertSorted_perm (le : α → α → Bool) (a : α) :
    ∀ l : List α, (insertSorted le a l).Perm (a :: l) := by
  intro l
  induction l with
  | nil => exact List.Perm.refl _
  | cons b bs ih =>
    unfold insertSorted
    by_cases h : le b a = true
    · rw [if_pos h]
      exact (ih.cons b).trans (List.Perm.swap a b bs)
    · rw [if_neg h]

/-- The insertion sort permutes its input. -/
theorem insertionSort_perm (le : α → α → Bool) :
    ∀ l : List α, (insertionSort le l).Perm l := by
  intro l
  induction l with
  | nil => exact List.Perm.refl _
  | cons x xs ih =>
    unfold insertionSort
    exact (insertSorted_perm le x (insertionSort le xs)).trans (ih.cons x)

/-- Inserting preserves sortedness for a total transitive comparator. -/
theorem insertSorted_pairwise (le : α → α → Bool)
    (htot : ∀ a b, le a b || le b a = true)
    (htrans : ∀ a b c, le a b = true → le b c = true → le a c = true) (a : α) :
    ∀ l : List α, List.Pairwise (fun x y => le x y = true) l →
      List.Pairwise (fun x y => le x y = true) (insertSorted le a l) := by
  intro l
  induction l with
  | nil => intro _; simp [insertSorted]
  | cons b bs ih =>
    intro hp
    obtain ⟨hb, hbs⟩ := List.pairwise_cons.mp hp
    unfold insertSorted
    by_cases h : le b a = true
    · rw [if_pos h]
      refine List.pairwise_cons.mpr ⟨?_, ih hbs⟩
      intro x hx
      rcases List.mem_cons.mp ((insertSorted_perm le a bs).mem_iff.mp hx) with rfl | hx
      · exact h
      · exact hb x hx
    · rw [if_neg h]
      refine List.pairwise_cons.mpr ⟨?_, hp⟩
      have hab : le a b = true := by
        cases hor : le a b
        · exfalso
          have hba : le b a = false := Bool.eq_false_iff.mpr h
          have := htot b a
          rw [hor, hba] at this
          exact absurd this (by simp)
        · rfl
      intro x hx
      rcases List.mem_cons.mp hx with rfl | hx
      · exact hab
      · exact htrans a b x hab (hb x hx)

/-- The insertion sort sorts, for a total transitive comparator. -/
theorem insertionSort_pairwise (le : α → α → Bool)
    (htot : ∀ a b, le a b || le b a = true)
    (htrans : ∀ a b c, le a b = true → le b c = true → le a c = true) :
    ∀ l : List α, List.Pairwise (fun x y => le x y = true) (insertionSort le l) := by
  intro l
  induction l with
  | nil => simp [insertionSort]
  | cons x xs ih =>
    unfold insertionSort
    exact insertSorted_pairwise le htot htrans x _ ih

/-- The scan of `matchRule` returns `none` exactly when every rule in the
scanned list evaluates to an ordinary non-match. -/
theorem firstMatch_none (eng : RegexEngine) (txn : Txn) :
    ∀ l : List Rule, firstMatch eng txn l = .ok none ↔
      ∀ r ∈ l, matchesWhenOpt eng txn r.when = .ok false := by
  intro l
  induction l with
  | nil => simp [firstMatch]
  | cons r rs ih =>
    rw [firstMatch]
    cases hm : matchesWhenOpt eng txn r.when with
    | error e =>
      constructor
      · intro h; exact absurd h (by simp)
      · intro hall
        have := hall r (List.mem_cons_self r rs)
        rw [hm] at this
        exact absurd this (by simp)
    | ok b =>
      cases b
      · simp only []
        constructor
        · intro h
          intro x hx
          rcases List.mem_cons.mp hx with rfl | hx
          · exact hm
          · exact ih.mp h x hx
        · intro hall
          exact ih.mpr fun x hx => hall x (List.mem_cons_of_mem r hx)
      · constructor
        · intro h; exact absurd h (by simp)
        · intro hall
          have := hall r (List.mem_cons_self r rs)
          rw [hm] at this
          exact absurd this (by simp)

/-- When the scan returns a rule, the scanned list splits into an
all-non-matching prefix, the returned (matching) rule, and a rest. -/
theorem firstMatch_some (eng : RegexEngine) (txn : Txn) :
    ∀ (l : List Rule) (r : Rule), firstMatch eng txn l = .ok (some r) →
      ∃ l₁ l₂, l = l₁ ++ r :: l₂ ∧
        (∀ x ∈ l₁, matchesWhenOpt eng txn x.when = .ok false) ∧
        matchesWhenOpt eng txn r.when = .ok true := by
  intro l
  induction l with
  | nil => intro r h; exact absurd h (by simp [firstMatch])
  | cons x xs ih =>
    intro r h
    rw [firstMatch] at h
    cases hm : matchesWhenOpt eng txn x.when with
    | error e => rw [hm] at h; exact absurd h (by simp)
    | ok b =>
      rw [hm] at h
      cases b
      · obtain ⟨l₁, l₂, heq, hpre, hmatch⟩ := ih r h
        refine ⟨x :: l₁, l₂, by rw [heq, List.cons_append], ?_, hmatch⟩
        intro y hy
        rcases List.mem_cons.mp hy with rfl | hy
        · exact hm
        · exact hpre y hy
      · simp only [Except.ok.injEq, Option.some.injEq] at h
        subst h
        exact ⟨[], xs, rfl, by simp, hm⟩

/-- C1 — `matchRule` returns `none` exactly when no rule's condition
matches; when it returns a rule, that rule matches and sits at an index
where every other matching rule has strictly lower priority, or equal
priority and an index no smaller (priority wins, declaration order breaks
ties). -/
theorem matchRule_priority_first_match (eng : RegexEngine) (txn : Txn)
    (doc : RulesFile) (res : Option Rule) (h : matchRule eng txn doc = .ok res) :
    (res = none ↔ ∀ r ∈ doc.rules, matchesWhenOpt eng txn r.when = .ok false)
  ∧ ∀ r, res = some r →
      matchesWhenOpt eng txn r.when = .ok true ∧
      ∃ i, ∃ hi : i < doc.rules.length, doc.rules[i] = r ∧
        ∀ j, ∀ hj : j < doc.rules.length,
          matchesWhenOpt eng txn (doc.rules[j]).when = .ok true →
            rulePrio doc.rules[j] < rulePrio r ∨
              (rulePrio doc.rules[j] = rulePrio r ∧ i ≤ j) := by
  have hperm : (insertionSort ruleLe doc.rules.enum).Perm doc.rules.enum :=
    insertionSort_perm ruleLe doc.rules.enum
  have hsperm : ((insertionSort ruleLe doc.rules.enum).map Prod.snd).Perm doc.rules := by
    have := hperm.map Prod.snd
    rwa [List.enum_map_snd] at this
  have hsort : List.Pairwise (fun x y => ruleLe x y = true)
      (insertionSort ruleLe doc.rules.enum) :=
    insertionSort_pairwise ruleLe ruleLe_total ruleLe_trans doc.rules.enum
  have hmr : matchRule eng txn doc =
      firstMatch eng txn ((insertionSort ruleLe doc.rules.enum).map Prod.snd) := rfl
  rw [hmr] at h
  constructor
  · constructor
    · intro hres
      subst hres
      intro r hr
      exact (firstMatch_none eng txn _).mp h r (hsperm.mem_iff.mpr hr)
    · intro hall
      have hfm : firstMatch eng txn
          ((insertionSort ruleLe doc.rules.enum).map Prod.snd) = .ok none :=
        (firstMatch_none eng txn _).mpr fun r hr => hall r (hsperm.mem_iff.mp hr)
      rw [hfm] at h
      simp only [Except.ok.injEq] at h
      exact h.symm
  · intro r hres
    subst hres
    obtain ⟨l₁, l₂, hsplit, hpre, hmatch⟩ := firstMatch_some eng txn _ r h
    refine ⟨hmatch, ?_⟩
    obtain ⟨d₁, rest, hd, hd1, hrest⟩ := List.map_eq_append_iff.mp hsplit
    obtain ⟨p, d₂, hp, hpr, hd2⟩ := List.map_eq_cons_iff.mp hrest
    have hdfull : insertionSort ruleLe doc.rules.enum = d₁ ++ p :: d₂ := by
      rw [hd, hp]
    have hpmem : p ∈ doc.rules.enum := by
      refine hperm.mem_iff.mp ?_
      rw [hdfull]
      exact List.mem_append.mpr (Or.inr (List.mem_cons_self p d₂))
    have hpget := List.mem_enum_iff_getElem?.mp hpmem
    rw [hpr] at hpget
    obtain ⟨hilt, hie⟩ := List.getElem?_eq_some.mp hpget
    refine ⟨p.1, hilt, hie, ?_⟩
    intro j hj hmj
    have hjmem : (j, doc.rules[j]) ∈ doc.rules.enum := by
      rw [List.mem_enum_iff_getElem?]
      exact List.getElem?_eq_getElem hj
    have hjsorted : (j, doc.rules[j]) ∈ d₁ ++ p :: d₂ := by
      rw [← hdfull]
      exact hperm.mem_iff.mpr hjmem
    rcases List.mem_append.mp hjsorted with hjd1 | hjd2
    · exfalso
      have : doc.rules[j] ∈ l₁ := by
        rw [← hd1]
        exact List.mem_map.mpr ⟨(j, doc.rules[j]), hjd1, rfl⟩
      have hfalse := hpre _ this
      rw [hmj] at hfalse
      exact absurd hfalse (by simp)
    · rcases List.mem_cons.mp hjd2 with hjp | hjd2
      · right
        have hj2 : doc.rules[j] = r := by
          have := congrArg Prod.snd hjp
          simpa [hpr] using this
        have hji : j = p.1 := by
          have := congrArg Prod.fst hjp
          simpa using this
        refine ⟨by rw [hj2], by omega⟩
      · have hle : ruleLe p (j, doc.rules[j]) = true := by
          have hpair := (List.pairwise_append.mp (hdfull ▸ hsort)).2.1
          exact List.rel_of_pairwise_cons hpair hjd2
        unfold ruleLe at hle
        rw [hpr] at hle
        dsimp only at hle
        by_cases hpeq : rulePrio r = rulePrio (doc.rules[j])
        · rw [if_pos hpeq] at hle
          right
          exact ⟨hpeq.symm, by simpa using hle⟩
        · rw [if_neg hpeq] at hle
          left
          simpa using hle

/-- C1 witness — the specification's priority scenario: declaration order
10, 100, 50, all matching; the priority-100 rule matches and wins. -/
theorem matchRule_priority_first_match_witness :
    matchesWhenOpt engNone txnPlain ruleP100.when = .ok true :=
  (((matchRule_priority_first_match engNone txnPlain docPrio (some ruleP100)
    (by rfl)).2) ruleP100 rfl).1

/-- C8 — in Debit/Credit mode the Costco parser emits, per data row,
amount `(credit || 0) − (debit || 0)`; rows with a pending status or a
zero computed amount produce no transaction, and every emitted amount is
non-zero. -/
theorem costco_credit_minus_debit (csv source : String) (ctx : CostcoCtx)
    (rows : List String) (hh : costcoHeader csv source = .ok (some (ctx, rows)))
    (hdc : (ctx.debitIx.isSome || ctx.creditIx.isSome) = true) :
    costcoParse csv source =
      .ok ((List.enumFrom 1 rows).filterMap fun p => costcoRow ctx p.1 p.2)
  ∧ (∀ i line, costcoPending ctx (splitCsvLine line) = true →
      costcoRow ctx i line = none)
  ∧ (∀ i line, costcoRowAmount ctx (splitCsvLine line) = some 0 →
      costcoRow ctx i line = none)
  ∧ (∀ i line t, costcoRow ctx i line = some t →
      t.amount = orZero (costcoCredit ctx (splitCsvLine line)) -
        orZero (costcoDebit ctx (splitCsvLine line)) ∧ t.amount ≠ 0) := by
  refine ⟨?_, ?_, ?_, ?_⟩
  · unfold costcoParse
    rw [hh]
  · intro i line hp
    simp [costcoRow, hp]
  · intro i line ha
    simp only [costcoRow, ha]
    split_ifs with hp
    · rfl
    · split <;> simp_all
  · intro i line t ht
    simp only [costcoRow] at ht
    split_ifs at ht with hp
    split at ht
    · next d a hd ha =>
      split_ifs at ht with hg
      simp only [Option.some.injEq] at ht
      subst ht
      simp only [Bool.or_eq_true, decide_eq_true_iff] at hg
      push_neg at hg
      have hra : costcoRowAmount ctx (splitCsvLine line) =
          some (orZero (costcoCredit ctx (splitCsvLine line)) -
            orZero (costcoDebit ctx (splitCsvLine line))) := by
        unfold costcoRowAmount
        rw [if_pos hdc]
      rw [hra, Option.some.injEq] at ha
      exact ⟨ha.symm, hg.2⟩
    · exact absurd ht (by simp)

/-- C8 witness — the pending data row of `csvW8` yields no transaction. -/
theorem costco_credit_minus_debit_witness :
    costcoRow ctxW8 1 lineW8 = none :=
  (costco_credit_minus_debit csvW8 "costco" ctxW8 [lineW8] (by rfl)
    (by rfl)).2.1 1 lineW8 (by rfl)

/-- C10 — a generic-source data row with a valid date, a non-empty
description and an empty amount field yields a transaction of amount
exactly 0 from `parse`'s row handling, and `parseWithErrors` treats the
same row as error-free with amount 0; both parsers are the row-wise runs
of these handlers. -/
theorem empty_amount_parses_as_zero (ctx : GenCtx) (i : ℕ) (line : String)
    (hdate : (normalizeDate (getCol (splitCsvLine line) ctx.dateIx)).isSome = true)
    (hdesc : jsTrim ((getCol (splitCsvLine line) ctx.descIx).getD "") ≠ "")
    (hamt : getCol (splitCsvLine line) ctx.amtIx = some "") :
    (∃ t, genericRow ctx i line = some t ∧ t.amount = 0)
  ∧ (∃ t, pweRow ctx i line = Sum.inr t ∧ t.amount = 0)
  ∧ (∀ csv rows, genericHeader csv ctx.src = some (some (ctx, rows)) →
      genericParse csv ctx.src =
        .ok ((List.enumFrom 1 rows).filterMap fun p => genericRow ctx p.1 p.2))
  ∧ (∀ csv rows, genericHeader csv ctx.src = some (some (ctx, rows)) →
      (parseWithErrors csv ctx.src).transactions =
        (((List.enumFrom 1 rows).map fun p => pweRow ctx p.1 p.2).filterMap fun r =>
          match r with
          | Sum.inr t => some t
          | Sum.inl _ => none) ∧
      (parseWithErrors csv ctx.src).errors =
        (((List.enumFrom 1 rows).map fun p => pweRow ctx p.1 p.2).filterMap fun r =>
          match r with
          | Sum.inl e => some e
          | Sum.inr _ => none)) := by
  obtain ⟨d, hd⟩ := Option.isSome_iff_exists.mp hdate
  have hzero : normalizeAmount (some "") = some 0 := rfl
  refine ⟨?_, ?_, ?_, ?_⟩
  · refine ⟨⟨mkTxnId ctx.src d (jsTrim ((getCol (splitCsvLine line) ctx.descIx).getD "")) i,
      d, jsTrim ((getCol (splitCsvLine line) ctx.descIx).getD ""), 0, ctx.src⟩, ?_, rfl⟩
    simp only [genericRow, hd, hamt, hzero]
    rw [if_neg hdesc]
  · refine ⟨⟨mkTxnId ctx.src d (jsTrim ((getCol (splitCsvLine line) ctx.descIx).getD "")) i,
      d, jsTrim ((getCol (splitCsvLine line) ctx.descIx).getD ""), 0, ctx.src⟩, ?_, rfl⟩
    simp [pweRow, hd, hamt, hzero, hdesc]
  · intro csv rows hh
    unfold genericParse
    rw [hh]
  · intro csv rows hh
    unfold parseWithErrors
    rw [hh]
    exact ⟨rfl, rfl⟩

/-- C10 witness — the row `2025-01-02,Foo,` is parsed with amount 0. -/
theorem empty_amount_parses_as_zero_witness :
    ∃ t, genericRow ctxW10 1 lineW10 = some t ∧ t.amount = 0 :=
  (empty_amount_parses_as_zero ctxW10 1 lineW10 (by rfl) (by decide) (by rfl)).1
